import Mathlib

/-!
Verification development for the wasm-component-trampoline repository.

The Rust sources are shallowly embedded: strings are lists of characters,
BTreeMap / HashMap / IndexMap containers are association lists, the Slab of
packages (which the graph never removes from) is a plain list indexed by
position, and external runtime operations (component compilation, linker
instantiation, export lookup) are oracles passed in as parameters.  Machine
integers (u64 in semver) are Nat with explicit range checks where the source
checks overflow.
-/

set_option maxHeartbeats 1000000

namespace WCT

/-- Strings of the embedding: lists of characters. -/
abbrev Str := List Char

/-- Counts occurrences of a character, mirroring iterator counting on str. -/
def countCh (c : Char) : Str → Nat
  | [] => 0
  | x :: xs => (if x = c then 1 else 0) + countCh c xs

/-- Splitting on a character, mirroring the str split iterator of Rust:
the result always has one more segment than there are separators, and empty
segments are kept (so splitting the empty string yields one empty segment). -/
def splitOnCh (c : Char) : Str → List Str
  | [] => [[]]
  | x :: xs =>
    match splitOnCh c xs with
    | [] => [[]]
    | h :: t => if x = c then [] :: h :: t else (x :: h) :: t

/-- Joining with a separator character; inverse of splitOnCh. -/
def joinCh (c : Char) : List Str → Str
  | [] => []
  | [s] => s
  | s :: rest => s ++ c :: joinCh c rest

/-- Numeric value of an ASCII digit character. -/
def chVal (c : Char) : Nat := c.toNat - 48

/-- The ASCII digit character of a value below ten. -/
def digitCh (n : Nat) : Char := Char.ofNat (48 + n)

/-- Decimal digit test, mirroring is_ascii_digit of Rust. -/
def isDigitCh (c : Char) : Bool := 48 ≤ c.toNat && c.toNat ≤ 57

/-- Value of a decimal digit string, most significant digit first. -/
def digitsToNat (ds : Str) : Nat := ds.foldl (fun a c => a * 10 + chVal c) 0

/-- Decimal rendering of a natural number, mirroring Display for u64. -/
def natToDigits (n : Nat) : Str :=
  if _h : n < 10 then [digitCh n]
  else natToDigits (n / 10) ++ [digitCh (n % 10)]
termination_by n
decreasing_by exact Nat.div_lt_self (by omega) (by omega)

/-- A semantic version as stored by the semver crate: numeric triple plus
raw pre-release and build-metadata strings. -/
structure Version where
  major : Nat
  minor : Nat
  patch : Nat
  pre : Str
  build : Str
deriving DecidableEq, Repr

/-- Shorthand for a plain version, mirroring Version::new of semver. -/
def Version.new (major minor patch : Nat) : Version :=
  ⟨major, minor, patch, [], []⟩

/-- Error cases of the semver version parser. -/
inductive SemverError where
  | emptyNumber
  | leadingZero
  | overflow
  | expectedDot
  | unexpectedChar
  | badPre
  | badBuild
deriving DecidableEq, Repr

/-- The u64 ceiling checked by the semver numeric parser. -/
def u64Max : Nat := 2 ^ 64 - 1

/-- Parses a numeric identifier (digits, no leading zero, within u64),
returning the value and the unconsumed remainder. -/
def parseNumPart (s : Str) : Except SemverError (Nat × Str) :=
  let ds := s.takeWhile isDigitCh
  let rest := s.dropWhile isDigitCh
  if ds = [] then .error .emptyNumber
  else if 1 < ds.length ∧ ds.head? = some '0' then .error .leadingZero
  else if u64Max < digitsToNat ds then .error .overflow
  else .ok (digitsToNat ds, rest)

/-- Characters allowed in pre-release and build identifiers: ASCII
alphanumerics and hyphen. -/
def isIdentCh (c : Char) : Bool :=
  isDigitCh c || (65 ≤ c.toNat && c.toNat ≤ 90) || (97 ≤ c.toNat && c.toNat ≤ 122) || c = '-'

/-- Validity of a pre-release string: dot-separated nonempty identifiers of
allowed characters, numeric identifiers without leading zeros. -/
def preOk (p : Str) : Bool :=
  (splitOnCh '.' p).all fun id =>
    !id.isEmpty && id.all isIdentCh &&
      !(id.all isDigitCh && decide (1 < id.length) && id.head? == some '0')

/-- Validity of a build-metadata string: dot-separated nonempty identifiers
of allowed characters (leading zeros permitted). -/
def buildOk (b : Str) : Bool :=
  (splitOnCh '.' b).all fun id => !id.isEmpty && id.all isIdentCh

/-- Parses the optional pre-release and build tail of a version string. -/
def parseVersionTail (major minor patch : Nat) (rest : Str) : Except SemverError Version :=
  match rest with
  | [] => .ok ⟨major, minor, patch, [], []⟩
  | '-' :: r =>
    let p := r.takeWhile (fun c => c ≠ '+')
    let r2 := r.dropWhile (fun c => c ≠ '+')
    if preOk p then
      match r2 with
      | [] => .ok ⟨major, minor, patch, p, []⟩
      | '+' :: b =>
        if buildOk b then .ok ⟨major, minor, patch, p, b⟩ else .error .badBuild
      | _ => .error .unexpectedChar
    else .error .badPre
  | '+' :: b =>
    if buildOk b then .ok ⟨major, minor, patch, [], b⟩ else .error .badBuild
  | _ => .error .unexpectedChar

/-- The semver version parser: major.minor.patch with optional -pre and
+build parts. -/
def parseVersion (s : Str) : Except SemverError Version :=
  match parseNumPart s with
  | .error e => .error e
  | .ok (major, r1) =>
    match r1 with
    | '.' :: r1' =>
      match parseNumPart r1' with
      | .error e => .error e
      | .ok (minor, r2) =>
        match r2 with
        | '.' :: r2' =>
          match parseNumPart r2' with
          | .error e => .error e
          | .ok (patch, r3) => parseVersionTail major minor patch r3
        | _ => .error .expectedDot
    | _ => .error .expectedDot

/-- Display of a version, mirroring Display for semver Version. -/
def dispVersion (v : Version) : Str :=
  natToDigits v.major ++ '.' :: natToDigits v.minor ++ '.' :: natToDigits v.patch
    ++ (if v.pre.isEmpty then [] else '-' :: v.pre)
    ++ (if v.build.isEmpty then [] else '+' :: v.build)

/-- Lexicographic comparison of character lists by code point. -/
def strCmp : Str → Str → Ordering
  | [], [] => .eq
  | [], _ :: _ => .lt
  | _ :: _, [] => .gt
  | x :: xs, y :: ys =>
    match compare x.toNat y.toNat with
    | .eq => strCmp xs ys
    | o => o

/-- Comparison of one pre-release or build identifier, as the semver crate
does it: two numeric identifiers compare by length then lexically, numeric
identifiers order below alphanumeric ones, otherwise lexically. -/
def identCmp (x y : Str) : Ordering :=
  match x.all isDigitCh, y.all isDigitCh with
  | true, true =>
    match compare x.length y.length with
    | .eq => strCmp x y
    | o => o
  | true, false => .lt
  | false, true => .gt
  | false, false => strCmp x y

/-- Comparison of identifier sequences, shorter prefix first. -/
def identListCmp : List Str → List Str → Ordering
  | [], [] => .eq
  | [], _ :: _ => .lt
  | _ :: _, [] => .gt
  | x :: xs, y :: ys =>
    match identCmp x y with
    | .eq => identListCmp xs ys
    | o => o

/-- Pre-release ordering of the semver crate: the empty pre-release ranks
above every non-empty one, non-empty ones compare identifier-wise. -/
def preCmp (p q : Str) : Ordering :=
  match p.isEmpty, q.isEmpty with
  | true, true => .eq
  | true, false => .gt
  | false, true => .lt
  | false, false => identListCmp (splitOnCh '.' p) (splitOnCh '.' q)

/-- Build-metadata ordering of the semver crate: empty first, then
identifier-wise. -/
def buildCmp (b c : Str) : Ordering :=
  match b.isEmpty, c.isEmpty with
  | true, true => .eq
  | true, false => .lt
  | false, true => .gt
  | false, false => identListCmp (splitOnCh '.' b) (splitOnCh '.' c)

/-- Total order on versions as implemented by Ord for semver Version:
numeric triple, then pre-release precedence, then build metadata. -/
def versionCmp (u v : Version) : Ordering :=
  match compare u.major v.major with
  | .eq =>
    match compare u.minor v.minor with
    | .eq =>
      match compare u.patch v.patch with
      | .eq =>
        match preCmp u.pre v.pre with
        | .eq => buildCmp u.build v.build
        | o => o
      | o => o
    | o => o
  | o => o

/-- Ordered insertion position: true when the new key sorts strictly before
the listed key. -/
def cmpLt (o : Ordering) : Bool := o = .lt

/-- Insertion into the sorted key-value list modelling BTreeMap: replaces an
equal key, otherwise inserts at the ordered position. -/
def insertKV {T : Type} (v : Version) (t : T) : List (Version × T) → List (Version × T)
  | [] => [(v, t)]
  | (k, u) :: rest =>
    if v = k then (v, t) :: rest
    else if cmpLt (versionCmp v k) then (v, t) :: (k, u) :: rest
    else (k, u) :: insertKV v t rest

/-- Lookup in the key-value list modelling BTreeMap get. -/
def lookupKV {T : Type} (v : Version) : List (Version × T) → Option T
  | [] => none
  | (k, u) :: rest => if k = v then some u else lookupKV v rest

/-- Insertion into the sorted version list modelling BTreeSet. -/
def insertSet (v : Version) : List Version → List Version
  | [] => [v]
  | k :: rest =>
    if v = k then k :: rest
    else if cmpLt (versionCmp v k) then v :: k :: rest
    else k :: insertSet v rest

/-- Association-list lookup modelling HashMap get with version keys. -/
def lookupAL {T : Type} (v : Version) : List (Version × T) → Option T
  | [] => none
  | (k, u) :: rest => if k = v then some u else lookupAL v rest

/-- Association-list update modelling the entry API: modifies the value at
an existing key, otherwise appends a fresh entry. -/
def updateAL {T : Type} (v : Version) (f : Option T → T) : List (Version × T) → List (Version × T)
  | [] => [(v, f none)]
  | (k, u) :: rest => if k = v then (k, f (some u)) :: rest else (k, u) :: updateAL v f rest

/-- Computes the alternate version key for fallback lookups, translated from
version_alternate in semver.rs: no alternate for pre-release versions, else
major.0.0, else 0.minor.0, else 0.0.patch. -/
def versionAlternate (v : Version) : Option Version :=
  if ¬v.pre.isEmpty then none
  else if 0 < v.major then some (Version.new v.major 0 0)
  else if 0 < v.minor then some (Version.new 0 v.minor 0)
  else some (Version.new 0 0 v.patch)

/-- The version map of semver.rs: a primary ordered mapping from versions to
values and a secondary mapping from alternate keys to ordered sets of stored
versions. -/
structure VersionMap (T : Type) where
  versions : List (Version × T)
  alternates : List (Version × List Version)
deriving Repr

/-- The empty version map. -/
def VersionMap.empty {T : Type} : VersionMap T := ⟨[], []⟩

/-- Membership test, translated from contains_version. -/
def VersionMap.containsVersion {T : Type} (m : VersionMap T) (v : Version) : Bool :=
  (lookupKV v m.versions).isSome

/-- Updates the alternates mapping for a version, translated from
update_alternates: inserts the version into the bucket of its alternate key
when that key is defined. -/
def VersionMap.updateAlternates {T : Type} (m : VersionMap T) (v : Version) : VersionMap T :=
  match versionAlternate v with
  | some alt => { m with alternates := updateAL alt (fun s => insertSet v (s.getD [])) m.alternates }
  | none => m

/-- Internal insertion used by try_insert: updates alternates, then inserts
into the primary mapping. -/
def VersionMap.insertInternal {T : Type} (m : VersionMap T) (v : Version) (t : T) : VersionMap T :=
  let m1 := m.updateAlternates v
  { m1 with versions := insertKV v t m1.versions }

/-- Translated from try_insert: fails returning the rejected pair when the
exact version is present, else inserts. -/
def VersionMap.tryInsert {T : Type} (m : VersionMap T) (v : Version) (t : T) :
    Except (Version × T) (VersionMap T) :=
  if (lookupKV v m.versions).isSome then .error (v, t)
  else .ok (m.insertInternal v t)

/-- Translated from insert: overwrites the exact version, returning the
previous value; alternates are updated only for a new version. -/
def VersionMap.insert {T : Type} (m : VersionMap T) (v : Version) (t : T) :
    VersionMap T × Option T :=
  let old := lookupKV v m.versions
  let m1 := { m with versions := insertKV v t m.versions }
  match old with
  | none => (m1.updateAlternates v, none)
  | some u => (m1, some u)

/-- Translated from get_exact: primary lookup only. -/
def VersionMap.getExact {T : Type} (m : VersionMap T) (v : Version) : Option T :=
  lookupKV v m.versions

/-- Translated from get in semver.rs: exact match first; only when that
fails and the queried version has no build metadata, look up the bucket of
the alternate key and return the primary value of its last element. -/
def VersionMap.get {T : Type} (m : VersionMap T) (v : Version) : Option T :=
  match m.getExact v with
  | some t => some t
  | none =>
    if v.build.isEmpty then
      match versionAlternate v with
      | some alt =>
        match lookupAL alt m.alternates with
        | some versionSet =>
          match versionSet.getLast? with
          | some latest => lookupKV latest m.versions
          | none => none
        | none => none
      | none => none
    else none

/-- Translated from get_latest: the last (highest) primary entry. -/
def VersionMap.getLatest {T : Type} (m : VersionMap T) : Option (Version × T) :=
  m.versions.getLast?

/-- Translated from get_or_latest: get for a specific version, else the
value of the latest entry. -/
def VersionMap.getOrLatest {T : Type} (m : VersionMap T) (v : Option Version) : Option T :=
  match v with
  | some v => m.get v
  | none => m.getLatest.map Prod.snd

/-- All values stored in the primary mapping. -/
def VersionMap.valuesList {T : Type} (m : VersionMap T) : List T :=
  m.versions.map Prod.snd

/-- A fully-qualified path to a WIT interface with an optional version,
translated from ForeignInterfacePath of path.rs. -/
structure ForeignInterfacePath where
  packageName : Str
  interfaceName : Str
  version : Option Version
deriving DecidableEq, Repr

/-- A path to a WIT interface which may be local (no package name),
translated from InterfacePath of path.rs. -/
structure InterfacePath where
  packageName : Option Str
  interfaceName : Str
  version : Option Version
deriving DecidableEq, Repr

/-- Parse errors of InterfacePath, translated from
InterfacePathParseError. -/
inductive InterfacePathParseError where
  | formatError
  | versionParseError (source : SemverError)
deriving DecidableEq, Repr

/-- Translated from FromStr for InterfacePath: split on slash; one segment
with a stray at-sign is a format error, one segment without is a local path,
two segments continue, anything else is a format error; in the two-segment
case the second segment is split on the at-sign, the version being parsed
only when that produces exactly two parts. -/
def InterfacePath.fromStr (s : Str) : Except InterfacePathParseError InterfacePath :=
  match splitOnCh '/' s with
  | [_p0] =>
    if '@' ∈ s then .error .formatError
    else .ok ⟨none, s, none⟩
  | [p0, p1] =>
    match splitOnCh '@' p1 with
    | [iname] => .ok ⟨some p0, iname, none⟩
    | [iname, vstr] =>
      match parseVersion vstr with
      | .ok v => .ok ⟨some p0, iname, some v⟩
      | .error e => .error (.versionParseError e)
    | iname :: _ => .ok ⟨some p0, iname, none⟩
    | [] => .error .formatError
  | _ => .error .formatError

/-- Translated from into_foreign: a foreign path exactly when a package name
is present. -/
def InterfacePath.intoForeign (p : InterfacePath) : Option ForeignInterfacePath :=
  match p.packageName with
  | some name => some ⟨name, p.interfaceName, p.version⟩
  | none => none

/-- Display of a ForeignInterfacePath, translated from its Display impl. -/
def dispFIP (p : ForeignInterfacePath) : Str :=
  p.packageName ++ '/' :: p.interfaceName
    ++ (match p.version with | some v => '@' :: dispVersion v | none => [])

/-- Display of an InterfacePath, translated from its Display impl. -/
def dispIP (p : InterfacePath) : Str :=
  (match p.packageName with | some n => n ++ ['/'] | none => [])
    ++ p.interfaceName
    ++ (match p.version with | some v => '@' :: dispVersion v | none => [])

/-- The version map built by the unit test test_version_map_alternate_lookups
of semver.rs restricted to the two versions that decide the lookup order:
1.0.0 bound to value1 and 1.0.1 bound to value2, both inserted by try_insert. -/
def c1Map : VersionMap String :=
  match VersionMap.empty.tryInsert (Version.new 1 0 0) "value1" with
  | .ok m =>
    match m.tryInsert (Version.new 1 0 1) "value2" with
    | .ok m2 => m2
    | .error _ => m
  | .error _ => VersionMap.empty

/-! ## The composition graph of graph.rs -/

/-- Package identifiers: indices into the dense package store.  The source
wraps a Slab index; since the graph never removes packages (see C2), the
store is a list and fresh ids are consecutive. -/
abbrev PkgId := Nat

/-- Opaque component byte blobs, distinguished by token. -/
abbrev Bytes := Nat

/-- Opaque tokens for errors produced by the external runtime (anyhow
errors in the source). -/
abbrev ExtErr := Nat

/-- Association-list lookup, modelling map get for hash and index maps. -/
def alookup {K V : Type} [DecidableEq K] (k : K) : List (K × V) → Option V
  | [] => none
  | (k', v) :: rest => if k' = k then some v else alookup k rest

/-- Association-list update, modelling the entry API: modifies the value at
an existing key, otherwise appends a fresh entry. -/
def aupdate {K V : Type} [DecidableEq K] (k : K) (f : Option V → V) :
    List (K × V) → List (K × V)
  | [] => [(k, f none)]
  | (k', v) :: rest =>
    if k' = k then (k', f (some v)) :: rest else (k', v) :: aupdate k f rest

/-- Item kinds of wac_types as the graph inspects them: instance exports
carry an interface id, function exports a function id. -/
inductive ItemKind where
  | instanceKind (interface : Nat)
  | funcKind (func : Nat)
  | otherKind
deriving DecidableEq, Repr

/-- The part of a wac_types interface record that the graph reads: the
optional fully-qualified id string and the export list. -/
structure InterfaceDef where
  idStr : Option Str
  exports : List (Str × ItemKind)
deriving DecidableEq, Repr

/-- The shared type-information store accumulated across packages: the
interface records plus the size of the function-type arena (the function
types themselves are opaque payloads handed to shims). -/
structure Types where
  interfaces : List InterfaceDef
  funcTypes : Nat
deriving DecidableEq, Repr

/-- The type-level shape of a parsed package: its export map, import map and
use entries (each use entry holding the interface id it points into). -/
structure PackageShape where
  exports : List (Str × ItemKind)
  imports : List (Str × ItemKind)
  uses : List Nat
deriving DecidableEq, Repr

/-- A catalogued package: name, version, raw bytes and parsed shape.  The
source stores the version as an Option but always constructs it as Some
(add_package passes Some(&version) to Package::from_bytes). -/
structure Package where
  name : Str
  version : Version
  bytes : Bytes
  shape : PackageShape
deriving DecidableEq, Repr

/-- The sync/async tag of a stored interface trampoline; the payloads (host
closures) are external and not modelled. -/
inductive DynInterfaceTrampoline where
  | sync
  | async
deriving DecidableEq, Repr

/-- An exported-interface record of the graph. -/
structure InterfaceExport where
  package : PkgId
  interface : Nat
  trampoline : DynInterfaceTrampoline
deriving DecidableEq, Repr

/-- The composition graph state, translated from CompositionGraph of
graph.rs.  There is no import-filter field in the provided source (see C3). -/
structure CompositionGraph where
  types : Types
  packages : List Package
  packageMap : List (Str × VersionMap PkgId)
  exportedInterfaces : List (ForeignInterfacePath × InterfaceExport)
  importedInterfaces : List (PkgId × List ForeignInterfacePath)

/-- The empty graph, translated from CompositionGraph::new. -/
def CompositionGraph.new : CompositionGraph := ⟨⟨[], 0⟩, [], [], [], []⟩

/-- Errors of add_package, translated from AddPackageError. -/
inductive AddPackageError where
  | duplicatePackage (name : Str) (version : Version)
  | packageParseError (source : ExtErr)
  | importParseError (interface : Str) (source : InterfacePathParseError)
deriving DecidableEq, Repr

/-- Outcome of add_package: success or error (both carrying the graph left
behind, since the source mutates in place and does not roll back), or the
panic of the duplicate-exported-interface branch. -/
inductive AddResult where
  | ok (g : CompositionGraph) (id : PkgId)
  | err (g : CompositionGraph) (e : AddPackageError)
  | panicked

/-- Translated from str::strip_prefix as used on export names. -/
def stripPre (p s : Str) : Option Str :=
  if p.isPrefixOf s then some (s.drop p.length) else none

/-- Translated from str::strip_suffix as used on export names. -/
def stripSuf (suf s : Str) : Option Str :=
  if suf.isSuffixOf s then some (s.take (s.length - suf.length)) else none

/-- The export-indexing loop of add_package: every instance export whose
name is package_prefix ++ iface ++ version_suffix is recorded in
exported_interfaces under the canonical path with the per-interface
trampoline; a duplicate key is the panic branch of the source. -/
def scanExports (name : Str) (version : Version) (packageId : PkgId)
    (tramp : Str → DynInterfaceTrampoline) (pkgPre verSuf : Str) :
    List (Str × ItemKind) → List (ForeignInterfacePath × InterfaceExport) →
      Option (List (ForeignInterfacePath × InterfaceExport))
  | [], acc => some acc
  | (exportName, exportKind) :: rest, acc =>
    match exportKind with
    | .instanceKind interfaceId =>
      match (stripPre pkgPre exportName).bind (stripSuf verSuf) with
      | some interfaceName =>
        let path : ForeignInterfacePath := ⟨name, interfaceName, some version⟩
        if (alookup path acc).isSome then
          none
        else
          scanExports name version packageId tramp pkgPre verSuf rest
            (acc ++ [(path, ⟨packageId, interfaceId, tramp interfaceName⟩)])
      | none => scanExports name version packageId tramp pkgPre verSuf rest acc
    | _ => scanExports name version packageId tramp pkgPre verSuf rest acc

/-- The import closure of add_package: parse the import name; local paths
are dropped, foreign ones appended to the package entry. -/
def importOne (pid : PkgId) (importName : Str)
    (ii : List (PkgId × List ForeignInterfacePath)) :
    Except InterfacePathParseError (List (PkgId × List ForeignInterfacePath)) :=
  match InterfacePath.fromStr importName with
  | .error e => .error e
  | .ok path =>
    match path.intoForeign with
    | some fp => .ok (aupdate pid (fun l => l.getD [] ++ [fp]) ii)
    | none => .ok ii

/-- Result alternative for the re-scan helpers: either the updated table or
the parse error with the partial table. -/
abbrev ScanStep :=
  Except (List (PkgId × List ForeignInterfacePath) × Str × InterfacePathParseError)
    (List (PkgId × List ForeignInterfacePath))

/-- The uses loop of the re-scan for one package: each use entry resolves
its interface id in the type store (an invalid index is the panic of the
Rust index operator, modelled as none), skips interfaces without id string,
and otherwise records the import. -/
def scanUses (types : Types) (pid : PkgId) :
    List Nat → List (PkgId × List ForeignInterfacePath) → Option ScanStep
  | [], ii => some (.ok ii)
  | u :: rest, ii =>
    match types.interfaces.get? u with
    | none => none
    | some idef =>
      match idef.idStr with
      | none => scanUses types pid rest ii
      | some importName =>
        match importOne pid importName ii with
        | .error e => some (.error (ii, importName, e))
        | .ok ii' => scanUses types pid rest ii'

/-- The imports loop of the re-scan for one package: only instance imports
are recorded. -/
def scanImports (pid : PkgId) :
    List (Str × ItemKind) → List (PkgId × List ForeignInterfacePath) → ScanStep
  | [], ii => .ok ii
  | (importName, importKind) :: rest, ii =>
    match importKind with
    | .instanceKind _ =>
      match importOne pid importName ii with
      | .error e => .error (ii, importName, e)
      | .ok ii' => scanImports pid rest ii'
    | _ => scanImports pid rest ii

/-- The whole-catalogue re-scan of add_package: for every package, in id
order, the uses loop then the instance-imports loop. -/
def rescanImports (types : Types) :
    List (PkgId × Package) → List (PkgId × List ForeignInterfacePath) →
      Option ScanStep
  | [], ii => some (.ok ii)
  | (pid, pkg) :: rest, ii =>
    match scanUses types pid pkg.shape.uses ii with
    | none => none
    | some (.error e) => some (.error e)
    | some (.ok ii1) =>
      match scanImports pid pkg.shape.imports ii1 with
      | .error e => some (.error e)
      | .ok ii2 => rescanImports types rest ii2

/-- Pairs each package with its id, modelling iteration over the Slab. -/
def enumeratePackages (packages : List Package) : List (PkgId × Package) :=
  (List.range packages.length).zip packages

/-- Translated from CompositionGraph::add_package.  The external parser
(Package::from_bytes together with the type store it extends) is the oracle
argument parse; tramp is the interface_trampoline factory of the supplied
package trampoline.  Steps: parse; insert into dense storage; try-insert
into the per-name version map, returning DuplicatePackage on conflict
without removing the dense entry; index the instance exports; re-scan the
imports of the whole catalogue. -/
def addPackage (parse : Bytes → Types → Except ExtErr (PackageShape × Types))
    (g : CompositionGraph) (name : Str) (version : Version) (bytes : Bytes)
    (tramp : Str → DynInterfaceTrampoline) : AddResult :=
  match parse bytes g.types with
  | .error e => .err g (.packageParseError e)
  | .ok (shape, types') =>
    let package : Package := ⟨name, version, bytes, shape⟩
    let packageId : PkgId := g.packages.length
    let packages' := g.packages ++ [package]
    let versionSet := (alookup name g.packageMap).getD VersionMap.empty
    match versionSet.tryInsert version packageId with
    | .error _ =>
      .err { g with types := types', packages := packages' }
        (.duplicatePackage name version)
    | .ok versionSet' =>
      let packageMap' := aupdate name (fun _ => versionSet') g.packageMap
      let pkgPre := name ++ ['/']
      let verSuf := '@' :: dispVersion version
      match scanExports name version packageId tramp pkgPre verSuf
          shape.exports g.exportedInterfaces with
      | none => .panicked
      | some exported' =>
        let g1 : CompositionGraph :=
          { types := types', packages := packages', packageMap := packageMap',
            exportedInterfaces := exported',
            importedInterfaces := g.importedInterfaces }
        match rescanImports types' (enumeratePackages packages')
            g.importedInterfaces with
        | none => .panicked
        | some (.error (ii, importName, e)) =>
          .err { g1 with importedInterfaces := ii }
            (.importParseError importName e)
        | some (.ok ii') => .ok { g1 with importedInterfaces := ii' } packageId

/-! ## Dependency resolution: package_load_order -/

/-- Errors of package_load_order, translated from LoadPackageError.  The
extra outOfFuel constructor belongs to the embedding only: the loop of the
source is a while loop, embedded with explicit fuel; packageLoadOrder runs
with fuel that provably suffices, so outOfFuel is unreachable there. -/
inductive LoadPackageError where
  | packageCycle (cycle : List Str)
  | missingPackageDependency (packageName : Str)
  | cannotResolvePackageVersion (name : Str) (version : Option Version)
  | outOfFuel
deriving DecidableEq, Repr

/-- The name reported in a cycle: the package name, or the UNKNOWN_PACKAGE
placeholder of the source when the id has no entry. -/
def pkgNameOrUnknown (g : CompositionGraph) (pid : PkgId) : Str :=
  match g.packages.get? pid with
  | some p => p.name
  | none => "\x7b\x7bUNKNOWN_PACKAGE\x7d\x7d".toList

/-- Resolution of one import against the catalogue: the package name must
be present in package_map and get_or_latest must yield an id. -/
def resolveImport (g : CompositionGraph) (imp : ForeignInterfacePath) :
    Except LoadPackageError PkgId :=
  match alookup imp.packageName g.packageMap with
  | none => .error (.missingPackageDependency imp.packageName)
  | some versionMap =>
    match versionMap.getOrLatest imp.version with
    | none => .error (.cannotResolvePackageVersion imp.packageName imp.version)
    | some pid => .ok pid

/-- The recorded imports of a package (empty when absent, as in the
source). -/
def importsOf (g : CompositionGraph) (pid : PkgId) : List ForeignInterfacePath :=
  (alookup pid g.importedInterfaces).getD []

/-- The per-package interface-name sets accumulated during resolution
(an IndexMap of IndexSets in the source). -/
abbrev Interfaces := List (PkgId × List Str)

/-- Insertion of an interface name into the set of a package. -/
def insertInterfaceName (pid : PkgId) (iname : Str) (ifs : Interfaces) : Interfaces :=
  aupdate pid (fun l => (if iname ∈ l.getD [] then l.getD [] else l.getD [] ++ [iname])) ifs

/-- The import loop of package_load_order for one expanded package: resolve
each import in order; push the resolved id with the current stack offset and
record the required interface name.  The first failing import aborts. -/
def processImports (g : CompositionGraph) (off : Nat) :
    List ForeignInterfacePath → List (PkgId × Nat) → Interfaces →
      Except LoadPackageError (List (PkgId × Nat) × Interfaces)
  | [], pushes, ifs => .ok (pushes, ifs)
  | imp :: rest, pushes, ifs =>
    match resolveImport g imp with
    | .error e => .error e
    | .ok pid =>
      processImports g off rest (pushes ++ [(pid, off)])
        (insertInterfaceName pid imp.interfaceName ifs)

/-- IndexSet insert: appends when absent. -/
def indexSetInsert (x : PkgId) (s : List PkgId) : List PkgId :=
  if x ∈ s then s else s ++ [x]

/-- IndexSet extend: inserts each element in order. -/
def indexSetExtend (s : List PkgId) (xs : List PkgId) : List PkgId :=
  xs.foldl (fun acc x => indexSetInsert x acc) s

/-- Position of an element in an IndexSet, modelling get_index_of. -/
def idxOf (x : PkgId) : List PkgId → Option Nat
  | [] => none
  | y :: rest => if y = x then some 0 else (idxOf x rest).map (· + 1)

/-- The loop state of package_load_order: the work stack of (package,
offset) pairs, the finished load order, the stack of packages being
expanded, and the interface sets. -/
structure LoadState where
  pstack : List (PkgId × Nat)
  loadOrder : List PkgId
  loadStack : List PkgId
  interfaces : Interfaces

/-- The while loop of package_load_order, fuelled.  Each iteration pops one
entry; drains the load stack above the entry offset into the load order (in
reverse); reports a cycle when the popped package is still on the load
stack; skips packages already ordered; otherwise pushes the package on the
load stack and pushes its resolved imports.  On an empty work stack the
result is the load order followed by the reversed load stack. -/
def ploLoop (g : CompositionGraph) :
    Nat → LoadState → Except LoadPackageError (List PkgId × Interfaces)
  | fuel, s =>
    match s.pstack with
    | [] => .ok (s.loadOrder ++ s.loadStack.reverse, s.interfaces)
    | (packageId, offset) :: rest =>
      match fuel with
      | 0 => .error .outOfFuel
      | fuel + 1 =>
        let drained := s.loadStack.drop offset
        let ls := s.loadStack.take offset
        let lo := indexSetExtend s.loadOrder drained.reverse
        match idxOf packageId ls with
        | some cycleStart =>
          .error (.packageCycle
            ((ls.drop cycleStart ++ [packageId]).map (pkgNameOrUnknown g)))
        | none =>
          if packageId ∈ lo then
            ploLoop g fuel { s with pstack := rest, loadOrder := lo, loadStack := ls }
          else
            let ls' := indexSetInsert packageId ls
            match processImports g ls'.length (importsOf g packageId) [] s.interfaces with
            | .error e => .error e
            | .ok (pushes, ifs') =>
              ploLoop g fuel
                { pstack := pushes.reverse ++ rest, loadOrder := lo,
                  loadStack := ls', interfaces := ifs' }

/-- Every package id stored anywhere in package_map (the only source of
resolved ids). -/
def allCatalogIds (g : CompositionGraph) : List PkgId :=
  (g.packageMap.map (fun kv => kv.2.valuesList)).foldr (· ++ ·) []

/-- A bound on how many entries one expansion can push. -/
def maxImportsLen (g : CompositionGraph) : Nat :=
  g.importedInterfaces.foldr (fun kv m => max kv.2.length m) 0

/-- The finite universe of package ids a run can ever touch. -/
def loadUniverse (g : CompositionGraph) (s : LoadState) : Finset Nat :=
  (allCatalogIds g).toFinset ∪ (s.pstack.map Prod.fst).toFinset ∪ s.loadStack.toFinset

/-- Ids of the universe not yet placed in the load order or load stack. -/
def remainingCount (g : CompositionGraph) (s : LoadState) : Nat :=
  ((loadUniverse g s).filter (fun x => x ∉ s.loadOrder ∧ x ∉ s.loadStack)).card

/-- Termination measure of the loop; it strictly decreases each iteration. -/
def loadMeasure (g : CompositionGraph) (s : LoadState) : Nat :=
  remainingCount g s * (maxImportsLen g + 1) + s.pstack.length

/-- Translated from CompositionGraph::package_load_order, with fuel that
suffices for every run (proved below): starts from the origin at offset 0
with empty order, stack and interface sets. -/
def packageLoadOrder (g : CompositionGraph) (origin : PkgId) :
    Except LoadPackageError (List PkgId × Interfaces) :=
  ploLoop g (loadMeasure g ⟨[(origin, 0)], [], [], []⟩ + 1) ⟨[(origin, 0)], [], [], []⟩

/-! ## Instantiation -/

/-- Errors of shadow instantiation, translated from
InstantiatePackageError. -/
inductive InstantiatePackageError where
  | componentInstantiationError (source : ExtErr)
  | linkerInstanceError (source : ExtErr)
  | instanceMissingInterfaceExport (interfaceName : Str)
  | instanceMissingInterfaceFuncExport (interfaceName : Str) (funcName : Str)
  | componentFuncRetrievalError (interfaceName : Str) (funcName : Str)
  | linkFuncInstantiationError (source : ExtErr)
  | invalidTrampolineSynchronicity
  | missingInterfaceExport (path : ForeignInterfacePath)
deriving DecidableEq, Repr

/-- Errors of instantiate, translated from InstantiateError. -/
inductive InstantiateError where
  | packageNotFound (id : PkgId)
  | loadPackageError (source : LoadPackageError)
  | instantiatePackageDependencyError (name : Str) (version : Option Version)
      (source : InstantiatePackageError)
  | componentInstantiationError (source : ExtErr)
deriving DecidableEq, Repr

/-- Whether a shim was installed with the blocking func_new or the
suspending func_new_async. -/
inductive InstallKind where
  | blocking
  | suspending
deriving DecidableEq, Repr

/-- One shim installed on the caller-supplied linker. -/
structure ShimRecord where
  instanceName : Str
  funcName : Str
  kind : InstallKind
deriving DecidableEq, Repr

/-- The caller-supplied linker, as the list of shims installed on it. -/
abbrev LinkerState := List ShimRecord

/-- The external runtime operations instantiate relies on, as oracles:
component compilation, linker instantiation (blocking and suspending),
export and function lookup on instances, sub-instance creation, and the two
func_new flavours. -/
structure RuntimeOracle where
  componentNew : Bytes → Except ExtErr Unit
  linkerInstantiate : LinkerState → Bytes → Except ExtErr Nat
  linkerInstantiateAsync : LinkerState → Bytes → Except ExtErr Nat
  getInstanceExport : Nat → Str → Option Nat
  getFuncExport : Nat → Nat → Str → Option Nat
  getFunc : Nat → Nat → Option Unit
  linkerInstance : Str → Except ExtErr Unit
  funcNew : Str → Str → Except ExtErr Unit
  funcNewAsync : Str → Str → Except ExtErr Unit

/-- Translated from SyncInstanceShadower::shadow_func: a Sync trampoline is
installed with the blocking func_new; an Async trampoline is rejected with
InvalidTrampolineSynchronicity. -/
def syncShadowFunc (oracle : RuntimeOracle) (linker : LinkerState)
    (instanceName funcName : Str) (trampoline : DynInterfaceTrampoline) :
    Except InstantiatePackageError LinkerState :=
  match trampoline with
  | .sync =>
    match oracle.funcNew instanceName funcName with
    | .error e => .error (.linkFuncInstantiationError e)
    | .ok _ => .ok (linker ++ [⟨instanceName, funcName, .blocking⟩])
  | .async => .error .invalidTrampolineSynchronicity

/-- Translated from AsyncInstanceShadower::shadow_func: a Sync trampoline is
installed with the blocking func_new on the suspending linker; an Async
trampoline is installed with func_new_async. -/
def asyncShadowFunc (oracle : RuntimeOracle) (linker : LinkerState)
    (instanceName funcName : Str) (trampoline : DynInterfaceTrampoline) :
    Except InstantiatePackageError LinkerState :=
  match trampoline with
  | .sync =>
    match oracle.funcNew instanceName funcName with
    | .error e => .error (.linkFuncInstantiationError e)
    | .ok _ => .ok (linker ++ [⟨instanceName, funcName, .blocking⟩])
  | .async =>
    match oracle.funcNewAsync instanceName funcName with
    | .error e => .error (.linkFuncInstantiationError e)
    | .ok _ => .ok (linker ++ [⟨instanceName, funcName, .suspending⟩])

/-- Dispatch on the shadower in use. -/
def shadowFuncFor (asyncMode : Bool) (oracle : RuntimeOracle) (linker : LinkerState)
    (instanceName funcName : Str) (trampoline : DynInterfaceTrampoline) :
    Except InstantiatePackageError LinkerState :=
  if asyncMode then asyncShadowFunc oracle linker instanceName funcName trampoline
  else syncShadowFunc oracle linker instanceName funcName trampoline

/-- The function loop of shadow_package for one interface: resolve each
function export on the shadow instance and install a shim.  An invalid
func-type index is the panic of the Rust index operator, modelled as none. -/
def shadowFuncs (g : CompositionGraph) (oracle : RuntimeOracle) (asyncMode : Bool)
    (shadowInstance : Nat) (interfaceExportId : Nat) (interfaceFullName : Str)
    (trampoline : DynInterfaceTrampoline) :
    List (Str × ItemKind) → LinkerState →
      Option (Except InstantiatePackageError LinkerState)
  | [], linker => some (.ok linker)
  | (exportName, exportKind) :: rest, linker =>
    match exportKind with
    | .funcKind funcId =>
      match oracle.getFuncExport shadowInstance interfaceExportId exportName with
      | none =>
        some (.error (.instanceMissingInterfaceFuncExport interfaceFullName exportName))
      | some funcExportId =>
        match oracle.getFunc shadowInstance funcExportId with
        | none =>
          some (.error (.componentFuncRetrievalError interfaceFullName exportName))
        | some _ =>
          if funcId < g.types.funcTypes then
            match shadowFuncFor asyncMode oracle linker interfaceFullName exportName
                trampoline with
            | .error e => some (.error e)
            | .ok linker' =>
              shadowFuncs g oracle asyncMode shadowInstance interfaceExportId
                interfaceFullName trampoline rest linker'
          else
            none
    | _ =>
      shadowFuncs g oracle asyncMode shadowInstance interfaceExportId
        interfaceFullName trampoline rest linker

/-- The interface loop of shadow_package: for each required interface name,
build the canonical path, find the export on the shadow instance, find the
graph's exported-interface record, create the linker sub-instance, and
install a shim for every function the interface exports. -/
def shadowPackage (g : CompositionGraph) (oracle : RuntimeOracle) (asyncMode : Bool)
    (pkg : Package) (shadowInstance : Nat) :
    List Str → LinkerState → Option (Except InstantiatePackageError LinkerState)
  | [], linker => some (.ok linker)
  | interfaceName :: rest, linker =>
    let interfacePath : ForeignInterfacePath := ⟨pkg.name, interfaceName, some pkg.version⟩
    let interfaceFullName := dispFIP interfacePath
    match oracle.getInstanceExport shadowInstance interfaceFullName with
    | none => some (.error (.instanceMissingInterfaceExport interfaceFullName))
    | some shadowInterfaceExportId =>
      match alookup interfacePath g.exportedInterfaces with
      | none => some (.error (.missingInterfaceExport interfacePath))
      | some interfaceExport =>
        match oracle.linkerInstance interfaceFullName with
        | .error e => some (.error (.linkerInstanceError e))
        | .ok _ =>
          match g.types.interfaces.get? interfaceExport.interface with
          | none => none
          | some interfaceDef =>
            match shadowFuncs g oracle asyncMode shadowInstance
                shadowInterfaceExportId interfaceFullName
                interfaceExport.trampoline interfaceDef.exports linker with
            | none => none
            | some (.error e) => some (.error e)
            | some (.ok linker') =>
              shadowPackage g oracle asyncMode pkg shadowInstance rest linker'

/-- Translated from instantiate_shadowed_package (and its async twin):
compile the bytes, instantiate the shadow on the linker, then install the
shims. -/
def instantiateShadowedPackage (g : CompositionGraph) (oracle : RuntimeOracle)
    (asyncMode : Bool) (pkg : Package) (linker : LinkerState)
    (interfaces : List Str) : Option (Except InstantiatePackageError LinkerState) :=
  match oracle.componentNew pkg.bytes with
  | .error e => some (.error (.componentInstantiationError e))
  | .ok _ =>
    match (if asyncMode then oracle.linkerInstantiateAsync linker pkg.bytes
        else oracle.linkerInstantiate linker pkg.bytes) with
    | .error e => some (.error (.componentInstantiationError e))
    | .ok shadowInstance =>
      shadowPackage g oracle asyncMode pkg shadowInstance interfaces linker

/-- Events of one instantiate call: shadow instantiation of a dependency,
and instantiation of the target. -/
inductive Ev where
  | shadow (id : PkgId)
  | target (id : PkgId)
deriving DecidableEq, Repr

/-- The dependency loop of instantiate: walk the load order, stopping at the
target; shadow-instantiate every dependency in order. -/
def shadowLoop (g : CompositionGraph) (oracle : RuntimeOracle) (asyncMode : Bool)
    (interfacesMap : Interfaces) (origin : PkgId) :
    List PkgId → LinkerState → List Ev →
      Option (LinkerState × List Ev × Option InstantiateError)
  | [], linker, evs => some (linker, evs, none)
  | pid :: rest, linker, evs =>
    if pid = origin then some (linker, evs, none)
    else
      match g.packages.get? pid with
      | none => some (linker, evs, some (.packageNotFound pid))
      | some shadowPkg =>
        let shadowInterfaces := (alookup pid interfacesMap).getD []
        match instantiateShadowedPackage g oracle asyncMode shadowPkg linker
            shadowInterfaces with
        | none => none
        | some (.error e) =>
          some (linker, evs, some (.instantiatePackageDependencyError
            shadowPkg.name (some shadowPkg.version) e))
        | some (.ok linker') =>
          shadowLoop g oracle asyncMode interfacesMap origin rest linker'
            (evs ++ [.shadow pid])

/-- Translated from CompositionGraph::instantiate and instantiate_async
(asyncMode selects the variant): compute the load order, compile the target,
shadow-instantiate every dependency in order, then instantiate the target on
the populated linker.  Besides the result, the embedding returns the graph
(which the source borrows mutably but never writes), the linker and the
event trace; none models a panic. -/
def instantiateCore (g : CompositionGraph) (oracle : RuntimeOracle)
    (asyncMode : Bool) (origin : PkgId) (linker : LinkerState) :
    Option (CompositionGraph × LinkerState × List Ev × Except InstantiateError Nat) :=
  match packageLoadOrder g origin with
  | .error e => some (g, linker, [], .error (.loadPackageError e))
  | .ok (order, interfacesMap) =>
    match g.packages.get? origin with
    | none => some (g, linker, [], .error (.packageNotFound origin))
    | some package =>
      match oracle.componentNew package.bytes with
      | .error e => some (g, linker, [], .error (.componentInstantiationError e))
      | .ok _ =>
        match shadowLoop g oracle asyncMode interfacesMap origin order linker [] with
        | none => none
        | some (linker', evs, some e) => some (g, linker', evs, .error e)
        | some (linker', evs, none) =>
          match (if asyncMode then oracle.linkerInstantiateAsync linker' package.bytes
              else oracle.linkerInstantiate linker' package.bytes) with
          | .error e =>
            some (g, linker', evs, .error (.componentInstantiationError e))
          | .ok instanceTok =>
            some (g, linker', evs ++ [.target origin], .ok instanceTok)

/-- The blocking instantiate. -/
def instantiateS (g : CompositionGraph) (oracle : RuntimeOracle) (origin : PkgId)
    (linker : LinkerState) :
    Option (CompositionGraph × LinkerState × List Ev × Except InstantiateError Nat) :=
  instantiateCore g oracle false origin linker

/-- The suspending instantiate. -/
def instantiateAsyncS (g : CompositionGraph) (oracle : RuntimeOracle) (origin : PkgId)
    (linker : LinkerState) :
    Option (CompositionGraph × LinkerState × List Ev × Except InstantiateError Nat) :=
  instantiateCore g oracle true origin linker

/-! ## Resolution properties used by the claims -/

/-- One resolved dependency edge: q has an import resolving to d. -/
def edgeStep (g : CompositionGraph) (q d : PkgId) : Prop :=
  ∃ imp ∈ importsOf g q, resolveImport g imp = .ok d

/-- Reachability along resolved dependency edges. -/
def Reach (g : CompositionGraph) (origin p : PkgId) : Prop :=
  Relation.ReflTransGen (edgeStep g) origin p

/-- A topologically sound order: every import of every listed package
resolves, and the package it resolves to appears strictly earlier. -/
def SoundOrder (g : CompositionGraph) (order : List PkgId) : Prop :=
  ∀ (j : Nat) (q : PkgId), order[j]? = some q → ∀ imp ∈ importsOf g q,
    ∃ d, resolveImport g imp = .ok d ∧ ∃ i : Nat, i < j ∧ order[i]? = some d

/-- The loop invariant of package_load_order for topological soundness. -/
structure PloInv (g : CompositionGraph) (origin : PkgId) (s : LoadState) : Prop where
  offsets_sorted : s.pstack.Pairwise (fun a b => b.2 ≤ a.2)
  offsets_le : ∀ e ∈ s.pstack, e.2 ≤ s.loadStack.length
  lo_nodup : s.loadOrder.Nodup
  ls_nodup : s.loadStack.Nodup
  disj : ∀ x ∈ s.loadOrder, x ∉ s.loadStack
  lo_closed : ∀ (j : Nat) (q : PkgId), s.loadOrder[j]? = some q → ∀ imp ∈ importsOf g q,
    ∃ d, resolveImport g imp = .ok d ∧ ∃ i : Nat, i < j ∧ s.loadOrder[i]? = some d
  ls_sound : ∀ (j : Nat) (q : PkgId), s.loadStack[j]? = some q → ∀ imp ∈ importsOf g q,
    ∃ d, resolveImport g imp = .ok d ∧
      (d ∈ s.loadOrder ∨ (∃ j' : Nat, j < j' ∧ s.loadStack[j']? = some d)
        ∨ (d, j + 1) ∈ s.pstack)
  origin_anchor : (s.loadStack = [] ∧ s.loadOrder = [] ∧ s.pstack = [(origin, 0)])
    ∨ s.loadStack[0]? = some origin
  offsets_pos : s.loadStack = [] ∨ ∀ e ∈ s.pstack, 1 ≤ e.2

/-- Every id a state mentions on its stacks is reachable from the origin. -/
def ReachInv (g : CompositionGraph) (origin : PkgId) (s : LoadState) : Prop :=
  (∀ e ∈ s.pstack, Reach g origin e.1) ∧ (∀ x ∈ s.loadStack, Reach g origin x)

/-- A catalogued package with the given name, version 1.0.0, and no type
information, used in the concrete catalogues below. -/
def plainPkg (n : Str) : Package := ⟨n, Version.new 1 0 0, 0, ⟨[], [], []⟩⟩

/-- A singleton version map binding 1.0.0 to the given id. -/
def vmOne (pid : PkgId) : VersionMap PkgId := ⟨[(Version.new 1 0 0, pid)], []⟩

/-- A concrete two-package catalogue in which packages a and b import an
interface of each other (by name, no version), reaching the cycle branch. -/
def gC5cyc : CompositionGraph :=
  ⟨⟨[], 0⟩, [plainPkg ("a".toList), plainPkg ("b".toList)],
   [("a".toList, vmOne 0), ("b".toList, vmOne 1)],
   [],
   [(0, [⟨"b".toList, "i".toList, none⟩]), (1, [⟨"a".toList, "j".toList, none⟩])]⟩

/-- A concrete diamond catalogue: o imports a and b, which both import c. -/
def gC4dia : CompositionGraph :=
  ⟨⟨[], 0⟩,
   [plainPkg ("o".toList), plainPkg ("a".toList),
    plainPkg ("b".toList), plainPkg ("c".toList)],
   [("o".toList, vmOne 0), ("a".toList, vmOne 1),
    ("b".toList, vmOne 2), ("c".toList, vmOne 3)],
   [],
   [(0, [⟨"a".toList, "x".toList, none⟩, ⟨"b".toList, "y".toList, none⟩]),
    (1, [⟨"c".toList, "z".toList, none⟩]),
    (2, [⟨"c".toList, "w".toList, none⟩]),
    (3, [])]⟩

/-- Per-package growth between two import tables: every package's recorded
list of imports in the second table is the corresponding list of the first
with some suffix appended. -/
def ImportsExtend (ii ii' : List (PkgId × List ForeignInterfacePath)) : Prop :=
  ∀ pid : PkgId, ∃ t, (alookup pid ii').getD [] = (alookup pid ii).getD [] ++ t

/-- A parse oracle for the two-package scenario of the import re-scan:
bytes token 0 is a component with a single foreign instance import b/i and
nothing else; any other token is an empty component. -/
def c6parse : Bytes → Types → Except ExtErr (PackageShape × Types)
  | 0, t => .ok (⟨[], [("b/i".toList, .instanceKind 0)], []⟩, t)
  | _, t => .ok (⟨[], [], []⟩, t)

/-- The import-classification rule, translated from ImportRule of filter.rs
(variants Skip, Include, Force; Include is the default). -/
inductive ImportRule where
  | skip
  | include'
  | force
deriving DecidableEq, Repr

/-- Modelled from the spec: the graph's optional import filter is a
predicate from fully-qualified import paths to rules (the ImportFilter
trait of filter.rs); the graph-side wiring (set_import_filter and the
classification inside add_package) is exercised by the repository's runner
but absent from the provided graph.rs. -/
abbrev ImportFilterFn := ForeignInterfacePath → ImportRule

/-- Modelled from the spec: the import closure of add_package under the
optional filter: each discovered foreign import is classified before being
placed into imported_interfaces (no filter means Include for every path),
and a Skip-classified import is omitted. -/
def importOneF (filt : Option ImportFilterFn) (pid : PkgId) (importName : Str)
    (ii : List (PkgId × List ForeignInterfacePath)) :
    Except InterfacePathParseError (List (PkgId × List ForeignInterfacePath)) :=
  match InterfacePath.fromStr importName with
  | .error e => .error e
  | .ok path =>
    match path.intoForeign with
    | some fp =>
      match (filt.getD (fun _ => .include')) fp with
      | .skip => .ok ii
      | _ => .ok (aupdate pid (fun l => l.getD [] ++ [fp]) ii)
    | none => .ok ii

/-- Modelled from the spec: the uses loop of the re-scan under the
filter. -/
def scanUsesF (filt : Option ImportFilterFn) (types : Types) (pid : PkgId) :
    List Nat → List (PkgId × List ForeignInterfacePath) → Option ScanStep
  | [], ii => some (.ok ii)
  | u :: rest, ii =>
    match types.interfaces.get? u with
    | none => none
    | some idef =>
      match idef.idStr with
      | none => scanUsesF filt types pid rest ii
      | some importName =>
        match importOneF filt pid importName ii with
        | .error e => some (.error (ii, importName, e))
        | .ok ii' => scanUsesF filt types pid rest ii'

/-- Modelled from the spec: the instance-imports loop of the re-scan under
the filter. -/
def scanImportsF (filt : Option ImportFilterFn) (pid : PkgId) :
    List (Str × ItemKind) → List (PkgId × List ForeignInterfacePath) → ScanStep
  | [], ii => .ok ii
  | (importName, importKind) :: rest, ii =>
    match importKind with
    | .instanceKind _ =>
      match importOneF filt pid importName ii with
      | .error e => .error (ii, importName, e)
      | .ok ii' => scanImportsF filt pid rest ii'
    | _ => scanImportsF filt pid rest ii

/-- Modelled from the spec: the whole-catalogue re-scan under the filter. -/
def rescanImportsF (filt : Option ImportFilterFn) (types : Types) :
    List (PkgId × Package) → List (PkgId × List ForeignInterfacePath) →
      Option ScanStep
  | [], ii => some (.ok ii)
  | (pid, pkg) :: rest, ii =>
    match scanUsesF filt types pid pkg.shape.uses ii with
    | none => none
    | some (.error e) => some (.error e)
    | some (.ok ii1) =>
      match scanImportsF filt pid pkg.shape.imports ii1 with
      | .error e => some (.error e)
      | .ok ii2 => rescanImportsF filt types rest ii2

/-- Modelled from the spec: add_package with the graph's optional import
filter applied to each discovered foreign import; with no filter set every
discovered import is classified Include, which coincides with the provided
source's add_package. -/
def addPackageF (filt : Option ImportFilterFn)
    (parse : Bytes → Types → Except ExtErr (PackageShape × Types))
    (g : CompositionGraph) (name : Str) (version : Version) (bytes : Bytes)
    (tramp : Str → DynInterfaceTrampoline) : AddResult :=
  match parse bytes g.types with
  | .error e => .err g (.packageParseError e)
  | .ok (shape, types') =>
    let package : Package := ⟨name, version, bytes, shape⟩
    let packageId : PkgId := g.packages.length
    let packages' := g.packages ++ [package]
    let versionSet := (alookup name g.packageMap).getD VersionMap.empty
    match versionSet.tryInsert version packageId with
    | .error _ =>
      .err { g with types := types', packages := packages' }
        (.duplicatePackage name version)
    | .ok versionSet' =>
      let packageMap' := aupdate name (fun _ => versionSet') g.packageMap
      let pkgPre := name ++ ['/']
      let verSuf := '@' :: dispVersion version
      match scanExports name version packageId tramp pkgPre verSuf
          shape.exports g.exportedInterfaces with
      | none => .panicked
      | some exported' =>
        let g1 : CompositionGraph :=
          { types := types', packages := packages', packageMap := packageMap',
            exportedInterfaces := exported',
            importedInterfaces := g.importedInterfaces }
        match rescanImportsF filt types' (enumeratePackages packages')
            g.importedInterfaces with
        | none => .panicked
        | some (.error (ii, importName, e)) =>
          .err { g1 with importedInterfaces := ii }
            (.importParseError importName e)
        | some (.ok ii') => .ok { g1 with importedInterfaces := ii' } packageId

/-- Modelled from the spec: growth restricted to imports the filter does
not Skip: every package's import list in the second table extends its list
in the first, and every appended entry was classified Include or Force. -/
def FilteredExtend (filt : ImportFilterFn)
    (ii ii' : List (PkgId × List ForeignInterfacePath)) : Prop :=
  ∀ pid : PkgId, ∃ t, (alookup pid ii').getD [] = (alookup pid ii).getD [] ++ t
    ∧ ∀ fp ∈ t, filt fp ≠ ImportRule.skip

/-- A filter skipping every import from package b, mirroring the runner's
regex filter that skips test:logging/system. -/
def filtSkipB : ImportFilterFn :=
  fun fp => if fp.packageName = "b".toList then .skip else .include'

/-- A total runtime oracle whose operations all succeed, used for concrete
witnesses. -/
def oracle0 : RuntimeOracle :=
  ⟨fun _ => .ok (), fun _ _ => .ok 0, fun _ _ => .ok 0, fun _ _ => some 0,
   fun _ _ _ => some 0, fun _ _ => some (), fun _ => .ok (), fun _ _ => .ok (),
   fun _ _ => .ok ()⟩

/-! ## Theorems -/

theorem splitOnCh_ne_nil (c : Char) (s : Str) : splitOnCh c s ≠ [] := by
  cases s with
  | nil => simp [splitOnCh]
  | cons x xs =>
    simp only [splitOnCh]
    cases splitOnCh c xs with
    | nil => simp
    | cons h t =>
      by_cases hx : x = c <;> simp [hx]

theorem length_splitOnCh (c : Char) (s : Str) :
    (splitOnCh c s).length = countCh c s + 1 := by
  induction s with
  | nil => simp [splitOnCh, countCh]
  | cons x xs ih =>
    simp only [splitOnCh, countCh]
    rcases hs : splitOnCh c xs with _ | ⟨h, t⟩
    · exact absurd hs (splitOnCh_ne_nil c xs)
    · rw [hs] at ih
      simp only [List.length_cons] at ih
      by_cases hx : x = c
      · simp only [if_pos hx, hx, if_true, List.length_cons]
        omega
      · simp only [if_neg hx, hx, if_false, List.length_cons]
        omega

theorem joinCh_splitOnCh (c : Char) (s : Str) : joinCh c (splitOnCh c s) = s := by
  induction s with
  | nil => simp [splitOnCh, joinCh]
  | cons x xs ih =>
    simp only [splitOnCh]
    rcases hs : splitOnCh c xs with _ | ⟨h, t⟩
    · exact absurd hs (splitOnCh_ne_nil c xs)
    · rw [hs] at ih
      by_cases hx : x = c
      · subst hx
        simpa [joinCh] using ih
      · cases t with
        | nil => simpa [joinCh, hx] using congrArg (x :: ·) ih
        | cons t0 ts => simpa [joinCh, hx] using congrArg (x :: ·) ih

theorem splitOnCh_single (c : Char) (s a : Str) (h : splitOnCh c s = [a]) : s = a := by
  have := joinCh_splitOnCh c s
  rw [h] at this
  simpa [joinCh] using this.symm

theorem splitOnCh_pair (c : Char) (s a b : Str) (h : splitOnCh c s = [a, b]) :
    s = a ++ c :: b := by
  have := joinCh_splitOnCh c s
  rw [h] at this
  simpa [joinCh] using this.symm

theorem splitOnCh_not_mem (c : Char) (a : Str) (h : c ∉ a) : splitOnCh c a = [a] := by
  induction a with
  | nil => simp [splitOnCh]
  | cons x xs ih =>
    simp only [List.mem_cons, not_or] at h
    simp only [splitOnCh, ih h.2]
    simp [Ne.symm h.1, h.1]

theorem splitOnCh_append (c : Char) (a b : Str) (h : c ∉ a) :
    splitOnCh c (a ++ c :: b) = a :: splitOnCh c b := by
  induction a with
  | nil =>
    simp only [List.nil_append, splitOnCh]
    rcases hs : splitOnCh c b with _ | ⟨h0, t⟩
    · exact absurd hs (splitOnCh_ne_nil c b)
    · simp
  | cons x xs ih =>
    simp only [List.mem_cons, not_or] at h
    simp only [List.cons_append, splitOnCh, List.append_eq]
    rw [ih h.2]
    simp [Ne.symm h.1, h.1]

theorem char_eq_of_toNat_eq {c d : Char} (h : c.toNat = d.toNat) : c = d :=
  Char.ext (UInt32.ext h)

theorem digit_char_cases {c : Char} (h : isDigitCh c = true) :
    c = '0' ∨ c = '1' ∨ c = '2' ∨ c = '3' ∨ c = '4'
      ∨ c = '5' ∨ c = '6' ∨ c = '7' ∨ c = '8' ∨ c = '9' := by
  simp only [isDigitCh, Bool.and_eq_true, decide_eq_true_eq] at h
  have hd : c.toNat = 48 ∨ c.toNat = 49 ∨ c.toNat = 50 ∨ c.toNat = 51 ∨ c.toNat = 52
      ∨ c.toNat = 53 ∨ c.toNat = 54 ∨ c.toNat = 55 ∨ c.toNat = 56 ∨ c.toNat = 57 := by
    omega
  rcases hd with h0 | h0 | h0 | h0 | h0 | h0 | h0 | h0 | h0 | h0 <;>
    [skip; right; (right; right); (right; right; right); (right; right; right; right);
     (right; right; right; right; right); (right; right; right; right; right; right);
     (right; right; right; right; right; right; right);
     (right; right; right; right; right; right; right; right);
     (right; right; right; right; right; right; right; right; right)] <;>
    first
      | exact char_eq_of_toNat_eq (by rw [h0]; decide)
      | exact Or.inl (char_eq_of_toNat_eq (by rw [h0]; decide))

theorem digitCh_chVal {c : Char} (h : isDigitCh c = true) : digitCh (chVal c) = c := by
  rcases digit_char_cases h with h0 | h0 | h0 | h0 | h0 | h0 | h0 | h0 | h0 | h0 <;>
    subst h0 <;> decide

theorem chVal_lt_ten {c : Char} (h : isDigitCh c = true) : chVal c < 10 := by
  simp only [isDigitCh, Bool.and_eq_true, decide_eq_true_eq] at h
  simp only [chVal]
  omega

theorem chVal_pos {c : Char} (h : isDigitCh c = true) (hne : c ≠ '0') : 0 < chVal c := by
  simp only [isDigitCh, Bool.and_eq_true, decide_eq_true_eq] at h
  have : c.toNat ≠ 48 := by
    intro heq
    exact hne (char_eq_of_toNat_eq (by rw [heq]; decide))
  simp only [chVal]
  omega

theorem natToDigits_small {n : Nat} (h : n < 10) : natToDigits n = [digitCh n] := by
  rw [natToDigits]
  simp [h]

theorem natToDigits_step {n : Nat} (h : ¬n < 10) :
    natToDigits n = natToDigits (n / 10) ++ [digitCh (n % 10)] := by
  conv_lhs => rw [natToDigits]
  simp [h]

theorem digitsToNat_snoc (ds : Str) (d : Char) :
    digitsToNat (ds ++ [d]) = 10 * digitsToNat ds + chVal d := by
  simp [digitsToNat, List.foldl_append, Nat.mul_comm]

theorem foldl_digits_ge (t : Str) (a : Nat) :
    a ≤ t.foldl (fun a c => a * 10 + chVal c) a := by
  induction t generalizing a with
  | nil => simp
  | cons x xs ih =>
    simp only [List.foldl_cons]
    calc a ≤ a * 10 + chVal x := by omega
    _ ≤ _ := ih (a * 10 + chVal x)

theorem digitsToNat_pos {c : Char} {t : Str} (h : isDigitCh c = true) (hne : c ≠ '0') :
    0 < digitsToNat (c :: t) := by
  have h1 := chVal_pos h hne
  have h2 := foldl_digits_ge t (chVal c)
  simp only [digitsToNat, List.foldl_cons, Nat.zero_mul, Nat.zero_add]
  omega

theorem natToDigits_digitsToNat (ds : Str) (h1 : ds ≠ [])
    (h2 : ∀ c ∈ ds, isDigitCh c = true)
    (h3 : ds.length = 1 ∨ ds.head? ≠ some '0') :
    natToDigits (digitsToNat ds) = ds := by
  induction ds using List.reverseRecOn with
  | nil => exact absurd rfl h1
  | append_singleton ds d ih =>
    have hd : isDigitCh d = true := h2 d (by simp)
    have hdlt := chVal_lt_ten hd
    cases ds with
    | nil =>
      have : digitsToNat [d] = chVal d := by simp [digitsToNat]
      rw [List.nil_append, this, natToDigits_small hdlt, digitCh_chVal hd]
    | cons c t =>
      have hc : isDigitCh c = true := h2 c (by simp)
      have hcne : c ≠ '0' := by
        rcases h3 with hlen | hh
        · simp at hlen
        · simpa using hh
      have hpos : 0 < digitsToNat (c :: t) := digitsToNat_pos hc hcne
      rw [digitsToNat_snoc]
      have hbig : ¬10 * digitsToNat (c :: t) + chVal d < 10 := by omega
      rw [natToDigits_step hbig]
      have hdiv : (10 * digitsToNat (c :: t) + chVal d) / 10 = digitsToNat (c :: t) := by
        omega
      have hmod : (10 * digitsToNat (c :: t) + chVal d) % 10 = chVal d := by
        omega
      rw [hdiv, hmod, digitCh_chVal hd]
      rw [ih (by simp) (fun x hx => h2 x (by simp at hx ⊢; tauto)) (Or.inr (by simpa using hcne))]

theorem parseNumPart_sound {s : Str} {n : Nat} {r : Str}
    (h : parseNumPart s = .ok (n, r)) : natToDigits n ++ r = s := by
  simp only [parseNumPart] at h
  by_cases hne : s.takeWhile isDigitCh = []
  · rw [if_pos hne] at h
    exact absurd h (by simp)
  · rw [if_neg hne] at h
    by_cases hlead : 1 < (s.takeWhile isDigitCh).length
        ∧ (s.takeWhile isDigitCh).head? = some '0'
    · rw [if_pos hlead] at h
      exact absurd h (by simp)
    · rw [if_neg hlead] at h
      by_cases hover : u64Max < digitsToNat (s.takeWhile isDigitCh)
      · rw [if_pos hover] at h
        exact absurd h (by simp)
      · rw [if_neg hover] at h
        simp only [Except.ok.injEq, Prod.mk.injEq] at h
        obtain ⟨hn, hr⟩ := h
        have hds : natToDigits (digitsToNat (s.takeWhile isDigitCh))
            = s.takeWhile isDigitCh := by
          apply natToDigits_digitsToNat _ hne
          · intro c hc
            exact List.mem_takeWhile_imp hc
          · rcases Decidable.em (1 < (s.takeWhile isDigitCh).length) with hl | hl
            · right
              intro hh
              exact hlead ⟨hl, hh⟩
            · left
              rcases hq : s.takeWhile isDigitCh with _ | ⟨a, t⟩
              · exact absurd hq hne
              · rw [hq] at hl
                simp at hl
                simp [hq, hl]
        rw [hn] at hds
        rw [hds, ← hr]
        exact List.takeWhile_append_dropWhile isDigitCh s

theorem takeWhile_append_stop {α : Type} (p : α → Bool) (a b : List α)
    (ha : ∀ x ∈ a, p x = true) : List.takeWhile p (a ++ b) = a ++ List.takeWhile p b := by
  induction a with
  | nil => simp
  | cons x xs ih =>
    have hx : p x = true := ha x (by simp)
    simp only [List.cons_append, List.takeWhile_cons, hx, if_true]
    rw [ih (fun y hy => ha y (by simp [hy]))]

theorem preOk_ne_nil {p : Str} (h : preOk p = true) : p ≠ [] := by
  intro hp
  subst hp
  exact absurd h (by decide)

theorem buildOk_ne_nil {b : Str} (h : buildOk b = true) : b ≠ [] := by
  intro hb
  subst hb
  exact absurd h (by decide)

theorem parseVersionTail_sound {M m p : Nat} {rest : Str} {v : Version}
    (h : parseVersionTail M m p rest = .ok v) :
    v.major = M ∧ v.minor = m ∧ v.patch = p ∧
      (if v.pre.isEmpty then ([] : Str) else '-' :: v.pre)
        ++ (if v.build.isEmpty then ([] : Str) else '+' :: v.build) = rest := by
  simp only [parseVersionTail] at h
  split at h
  · simp only [Except.ok.injEq] at h
    subst h
    simp
  · rename_i r
    split at h
    · rename_i hpre
      split at h
      · rename_i hr2
        simp only [Except.ok.injEq] at h
        subst h
        have hne := preOk_ne_nil hpre
        simp only [List.isEmpty_eq_true, hne, if_false, List.isEmpty_nil, if_true,
          List.append_nil, true_and]
        have hsplit := List.takeWhile_append_dropWhile (fun c => decide (c ≠ '+')) r
        rw [hr2, List.append_nil] at hsplit
        rw [hsplit]
      · rename_i b hr2
        split at h
        · simp only [Except.ok.injEq] at h
          subst h
          have hne := preOk_ne_nil hpre
          rename_i hbuild
          have hbne := buildOk_ne_nil hbuild
          simp only [List.isEmpty_eq_true, hne, hbne, if_false, List.cons_append,
            List.cons.injEq, true_and]
          rw [← hr2]
          exact List.takeWhile_append_dropWhile (fun c => decide (c ≠ '+')) r
        · exact absurd h (by simp)
      · exact absurd h (by simp)
    · exact absurd h (by simp)
  · rename_i b
    split at h
    · simp only [Except.ok.injEq] at h
      subst h
      rename_i hbuild
      have hbne := buildOk_ne_nil hbuild
      simp [hbne]
    · exact absurd h (by simp)
  · exact absurd h (by simp)

theorem parseVersion_disp {s : Str} {v : Version} (h : parseVersion s = .ok v) :
    dispVersion v = s := by
  simp only [parseVersion] at h
  split at h
  · exact absurd h (by simp)
  · rename_i M r1 h1
    split at h
    · rename_i r1'
      split at h
      · exact absurd h (by simp)
      · rename_i m r2 h2
        split at h
        · rename_i r2'
          split at h
          · exact absurd h (by simp)
          · rename_i p r3 h3
            obtain ⟨hM, hm, hp, htail⟩ := parseVersionTail_sound h
            have e1 := parseNumPart_sound h1
            have e2 := parseNumPart_sound h2
            have e3 := parseNumPart_sound h3
            rw [dispVersion, hM, hm, hp]
            rw [← e1, ← e2, ← e3, ← htail]
            simp [List.append_assoc]
        · exact absurd h (by simp)
    · exact absurd h (by simp)

/-- C1: the claim states that for a queried version without build metadata
whose alternate bucket is non-empty, get returns the primary value of the
last (maximum) version of the bucket, with the exact lookup used only as a
fallback, even when the queried version itself is stored.  The code does the
opposite: get of semver.rs tries the exact match first.  On the map of the
unit test of the repository (1.0.0 bound to value1, 1.0.1 bound to value2),
the query 1.0.0 carries no build metadata, its alternate bucket is
[1.0.0, 1.0.1] with last element 1.0.1 whose primary value is value2 — so
the claim (and the assertion at semver.rs line 316 of the unit test)
requires value2 — yet get returns value1.  This is evidence for a code_bug:
the code contradicts its own unit test. -/
theorem c1_get_prefers_exact_over_bucket_latest :
    (Version.new 1 0 0).build.isEmpty = true
    ∧ versionAlternate (Version.new 1 0 0) = some (Version.new 1 0 0)
    ∧ lookupAL (Version.new 1 0 0) c1Map.alternates
        = some [Version.new 1 0 0, Version.new 1 0 1]
    ∧ [Version.new 1 0 0, Version.new 1 0 1].getLast? = some (Version.new 1 0 1)
    ∧ c1Map.getExact (Version.new 1 0 1) = some "value2"
    ∧ c1Map.get (Version.new 1 0 0) = some "value1"
    ∧ some "value1" ≠ some "value2" := by
  decide

theorem fromStr_formatError_iff (s : Str) :
    InterfacePath.fromStr s = .error .formatError
      ↔ 2 ≤ countCh '/' s ∨ (countCh '/' s = 0 ∧ '@' ∈ s) := by
  have hlen := length_splitOnCh '/' s
  rcases hp : splitOnCh '/' s with _ | ⟨a, t⟩
  · exact absurd hp (splitOnCh_ne_nil '/' s)
  · rw [hp] at hlen
    rcases t with _ | ⟨b, t2⟩
    · have hc : countCh '/' s = 0 := by simp at hlen; omega
      by_cases hat : '@' ∈ s
      · simp [InterfacePath.fromStr, hp, hat, hc]
      · simp [InterfacePath.fromStr, hp, hat, hc]
    · rcases t2 with _ | ⟨c3, t3⟩
      · have hc : countCh '/' s = 1 := by simp at hlen; omega
        constructor
        · intro hL
          exfalso
          rcases hq : splitOnCh '@' b with _ | ⟨i, u⟩
          · exact absurd hq (splitOnCh_ne_nil '@' b)
          · rcases u with _ | ⟨vstr, u2⟩
            · simp [InterfacePath.fromStr, hp, hq] at hL
            · rcases u2 with _ | ⟨w, u3⟩
              · rcases hv : parseVersion vstr with e | vv <;>
                  simp [InterfacePath.fromStr, hp, hq, hv] at hL
              · simp [InterfacePath.fromStr, hp, hq] at hL
        · intro hR
          rcases hR with h2 | ⟨h0, _⟩
          · omega
          · omega
      · have hc : 2 ≤ countCh '/' s := by simp at hlen; omega
        simp [InterfacePath.fromStr, hp, hc]

theorem fromStr_badVersion {pkg iface ver : Str}
    (hpkg : '/' ∉ pkg) (hif : '/' ∉ iface) (hver : '/' ∉ ver)
    (hif2 : '@' ∉ iface) (hver2 : '@' ∉ ver)
    {e : SemverError} (he : parseVersion ver = .error e) :
    InterfacePath.fromStr (pkg ++ '/' :: (iface ++ '@' :: ver))
      = .error (.versionParseError e) := by
  have h1 : splitOnCh '/' (pkg ++ '/' :: (iface ++ '@' :: ver))
      = pkg :: splitOnCh '/' (iface ++ '@' :: ver) :=
    splitOnCh_append '/' pkg (iface ++ '@' :: ver) hpkg
  have h2 : splitOnCh '/' (iface ++ '@' :: ver) = [iface ++ '@' :: ver] := by
    apply splitOnCh_not_mem
    simp only [List.mem_append, List.mem_cons, not_or]
    refine ⟨hif, ?_, hver⟩
    decide
  have h3 : splitOnCh '@' (iface ++ '@' :: ver) = iface :: splitOnCh '@' ver :=
    splitOnCh_append '@' iface ver hif2
  have h4 : splitOnCh '@' ver = [ver] := splitOnCh_not_mem '@' ver hver2
  rw [h4] at h3
  rw [h2] at h1
  simp [InterfacePath.fromStr, h1, h3, he]

/-- C8: corrected.  The claim asserts that InterfacePath parsing fails with
FormatError for every input with a trailing slash; but an input with exactly
one slash in final position, such as x/, parses successfully (with an empty
interface name), so the trailing-slash clause of the claim is false. -/
theorem c8_trailing_slash_parses :
    InterfacePath.fromStr ("x/".toList)
        = .ok ⟨some ("x".toList), [], none⟩
      ∧ ("x/".toList).getLast? = some '/' := by
  constructor
  · rfl
  · rfl

/-- C8 (amended): FormatError occurs exactly for inputs with more than one
slash, or for slash-free inputs containing a stray at-sign; x/y/ (two
slashes) yields FormatError and x/y@ yields VersionParseError; and every
input of shape pkg/iface@ver whose version part is invalid semver fails with
VersionParseError.  The trailing-slash clause of the original claim is
dropped: a single trailing slash parses (see the counterexample). -/
theorem c8_parse_error_characterization :
    (∀ s : Str, InterfacePath.fromStr s = .error .formatError
        ↔ 2 ≤ countCh '/' s ∨ (countCh '/' s = 0 ∧ '@' ∈ s))
    ∧ InterfacePath.fromStr ("x/y/".toList) = .error .formatError
    ∧ InterfacePath.fromStr ("x/y@".toList)
        = .error (.versionParseError .emptyNumber)
    ∧ (∀ pkg iface ver : Str, '/' ∉ pkg → '/' ∉ iface → '/' ∉ ver →
        '@' ∉ iface → '@' ∉ ver → ∀ e : SemverError, parseVersion ver = .error e →
          InterfacePath.fromStr (pkg ++ '/' :: (iface ++ '@' :: ver))
            = .error (.versionParseError e)) := by
  refine ⟨fromStr_formatError_iff, by rfl, by rfl, ?_⟩
  intro pkg iface ver hpkg hif hver hif2 hver2 e he
  exact fromStr_badVersion hpkg hif hver hif2 hver2 he

theorem c8_parse_error_characterization_witness :
    InterfacePath.fromStr ("a/b@".toList)
      = .error (.versionParseError .emptyNumber) :=
  c8_parse_error_characterization.2.2.2 ("a".toList) ("b".toList) []
    (by decide) (by decide) (by decide) (by decide) (by decide)
    SemverError.emptyNumber (by rfl)

/-- C9: corrected.  The claim asserts that Display is the exact inverse of
every successful parse; but an input whose interface segment contains more
than one at-sign, such as x/y@1@2, parses successfully while silently
dropping the version suffix, and displaying the result yields x/y, not the
original input. -/
theorem c9_roundtrip_counterexample :
    InterfacePath.fromStr ("x/y@1@2".toList)
        = .ok ⟨some ("x".toList), "y".toList, none⟩
      ∧ dispIP ⟨some ("x".toList), "y".toList, none⟩ = "x/y".toList
      ∧ "x/y".toList ≠ "x/y@1@2".toList := by
  refine ⟨by rfl, by rfl, by decide⟩

/-- C9 (amended): for every string accepted by the parser whose final
slash-segment contains at most one at-sign, displaying the parsed path
reproduces the input exactly.  (When that segment has two or more at-signs
the parser silently drops the version suffix and the round trip fails, as
the counterexample shows.) -/
theorem c9_display_roundtrip (s : Str) (p : InterfacePath)
    (hok : InterfacePath.fromStr s = .ok p)
    (hat : countCh '@' ((splitOnCh '/' s).getLastD []) ≤ 1) :
    dispIP p = s := by
  rcases hp : splitOnCh '/' s with _ | ⟨a, t⟩
  · exact absurd hp (splitOnCh_ne_nil '/' s)
  · rcases t with _ | ⟨b, t2⟩
    · by_cases hq : '@' ∈ s
      · simp [InterfacePath.fromStr, hp, hq] at hok
      · simp only [InterfacePath.fromStr, hp, hq, if_false] at hok
        simp only [Except.ok.injEq] at hok
        subst hok
        simp [dispIP]
    · rcases t2 with _ | ⟨c3, t3⟩
      · have hs : s = a ++ '/' :: b := splitOnCh_pair '/' s a b hp
        rw [hp] at hat
        rw [show ([a, b] : List Str).getLastD [] = b from rfl] at hat
        rcases hq : splitOnCh '@' b with _ | ⟨i, u⟩
        · exact absurd hq (splitOnCh_ne_nil '@' b)
        · rcases u with _ | ⟨vstr, u2⟩
          · have hb : b = i := splitOnCh_single '@' b i hq
            simp only [InterfacePath.fromStr, hp, hq, Except.ok.injEq] at hok
            subst hok
            simp [dispIP, hs, hb]
          · rcases u2 with _ | ⟨w, u3⟩
            · have hb : b = i ++ '@' :: vstr := splitOnCh_pair '@' b i vstr hq
              rcases hv : parseVersion vstr with e | vv
              · simp [InterfacePath.fromStr, hp, hq, hv] at hok
              · simp only [InterfacePath.fromStr, hp, hq, hv, Except.ok.injEq] at hok
                subst hok
                have hvd := parseVersion_disp hv
                simp [dispIP, hs, hb, hvd]
            · exfalso
              have := length_splitOnCh '@' b
              rw [hq] at this
              simp at this
              omega
      · simp [InterfacePath.fromStr, hp] at hok

theorem idxOf_eq_none {x : PkgId} {l : List PkgId} (h : x ∉ l) : idxOf x l = none := by
  induction l with
  | nil => rfl
  | cons y rest ih =>
    simp only [List.mem_cons, not_or] at h
    simp only [idxOf, Ne.symm h.1, if_false, ih h.2, Option.map_none']

theorem mem_indexSetInsert (x y : PkgId) (s : List PkgId) :
    y ∈ indexSetInsert x s ↔ y ∈ s ∨ y = x := by
  simp only [indexSetInsert]
  by_cases hx : x ∈ s
  · simp only [if_pos hx]
    constructor
    · exact Or.inl
    · rintro (h | h)
      · exact h
      · exact h ▸ hx
  · simp [if_neg hx]

theorem indexSetInsert_of_not_mem {x : PkgId} {s : List PkgId} (h : x ∉ s) :
    indexSetInsert x s = s ++ [x] := by
  simp [indexSetInsert, h]

theorem mem_indexSetExtend (s xs : List PkgId) (y : PkgId) :
    y ∈ indexSetExtend s xs ↔ y ∈ s ∨ y ∈ xs := by
  induction xs generalizing s with
  | nil => simp [indexSetExtend]
  | cons x rest ih =>
    simp only [indexSetExtend, List.foldl_cons] at *
    rw [ih (indexSetInsert x s)]
    rw [mem_indexSetInsert]
    simp only [List.mem_cons]
    tauto

theorem indexSetExtend_of_disjoint {s xs : List PkgId} (hd : ∀ x ∈ xs, x ∉ s)
    (hn : xs.Nodup) : indexSetExtend s xs = s ++ xs := by
  induction xs generalizing s with
  | nil => simp [indexSetExtend]
  | cons x rest ih =>
    simp only [indexSetExtend, List.foldl_cons]
    have hx : x ∉ s := hd x (by simp)
    rw [indexSetInsert_of_not_mem hx] at *
    simp only [List.nodup_cons] at hn
    have : indexSetExtend (s ++ [x]) rest = (s ++ [x]) ++ rest := by
      apply ih
      · intro z hz
        simp only [List.mem_append, List.mem_singleton, not_or]
        exact ⟨hd z (by simp [hz]), fun he => hn.1 (he ▸ hz)⟩
      · exact hn.2
    simpa [List.append_assoc] using this

theorem processImports_ok {g : CompositionGraph} {off : Nat}
    {imps : List ForeignInterfacePath} {pushes0 pushes : List (PkgId × Nat)}
    {ifs0 ifs : Interfaces}
    (h : processImports g off imps pushes0 ifs0 = .ok (pushes, ifs)) :
    ∃ resolved : List PkgId,
      pushes = pushes0 ++ resolved.map (fun d => (d, off)) ∧
      List.Forall₂ (fun imp d => resolveImport g imp = .ok d) imps resolved := by
  induction imps generalizing pushes0 ifs0 with
  | nil =>
    simp only [processImports, Except.ok.injEq, Prod.mk.injEq] at h
    exact ⟨[], by simp [h.1.symm], List.Forall₂.nil⟩
  | cons imp rest ih =>
    simp only [processImports] at h
    rcases hr : resolveImport g imp with e | d <;> rw [hr] at h
    · exact absurd h (by simp)
    · obtain ⟨resolved, hp, hf⟩ := ih h
      exact ⟨d :: resolved, by simp [hp, List.append_assoc], List.Forall₂.cons hr hf⟩

theorem processImports_error {g : CompositionGraph} {off : Nat}
    {imps : List ForeignInterfacePath} {pushes0 : List (PkgId × Nat)}
    {ifs0 : Interfaces} {e : LoadPackageError}
    (h : processImports g off imps pushes0 ifs0 = .error e) :
    ∃ imp ∈ imps, resolveImport g imp = .error e := by
  induction imps generalizing pushes0 ifs0 with
  | nil => simp [processImports] at h
  | cons imp rest ih =>
    simp only [processImports] at h
    rcases hr : resolveImport g imp with e' | d <;> rw [hr] at h
    · simp only [Except.error.injEq] at h
      exact ⟨imp, by simp, h ▸ hr⟩
    · obtain ⟨imp', hmem, hres⟩ := ih h
      exact ⟨imp', by simp [hmem], hres⟩

theorem mem_foldr_append {A : Type} {xs : List (List A)} {l : List A} (hl : l ∈ xs) :
    ∀ x ∈ l, x ∈ xs.foldr (· ++ ·) [] := by
  induction xs with
  | nil => simp at hl
  | cons y ys ih =>
    intro x hx
    simp only [List.foldr_cons, List.mem_append]
    rcases List.mem_cons.mp hl with heq | hl'
    · exact Or.inl (heq ▸ hx)
    · exact Or.inr (ih hl' x hx)

theorem mem_foldr_max {xs : List (PkgId × List ForeignInterfacePath)}
    {kv : PkgId × List ForeignInterfacePath} (hb : kv ∈ xs) :
    kv.2.length ≤ xs.foldr (fun kv m => max kv.2.length m) 0 := by
  induction xs with
  | nil => simp at hb
  | cons y ys ih =>
    simp only [List.foldr_cons]
    rcases List.mem_cons.mp hb with heq | hb'
    · rw [heq]
      exact Nat.le_max_left _ _
    · exact le_trans (ih hb') (Nat.le_max_right _ _)

theorem lookupKV_mem {T : Type} {v : Version} {l : List (Version × T)} {t : T}
    (h : lookupKV v l = some t) : t ∈ l.map Prod.snd := by
  induction l with
  | nil => simp [lookupKV] at h
  | cons kv rest ih =>
    simp only [lookupKV] at h
    by_cases hk : kv.1 = v
    · rw [if_pos hk] at h
      simp [← Option.some_inj.mp h]
    · rw [if_neg hk] at h
      simp [ih h]

theorem getLast?_mem {T : Type} {l : List T} {t : T} (h : l.getLast? = some t) :
    t ∈ l := by
  induction l with
  | nil => simp at h
  | cons x rest ih =>
    cases rest with
    | nil =>
      simp only [List.getLast?_singleton, Option.some_inj] at h
      simp [h]
    | cons y ys =>
      rw [List.getLast?_cons_cons] at h
      exact List.mem_cons_of_mem _ (ih h)

theorem getOrLatest_mem {T : Type} {m : VersionMap T} {vOpt : Option Version} {t : T}
    (h : m.getOrLatest vOpt = some t) : t ∈ m.valuesList := by
  rcases vOpt with _ | v
  · simp only [VersionMap.getOrLatest, VersionMap.getLatest, Option.map_eq_some'] at h
    obtain ⟨⟨kv, tv⟩, hl, ht⟩ := h
    have := getLast?_mem hl
    subst ht
    exact List.mem_map_of_mem Prod.snd this
  · simp only [VersionMap.getOrLatest, VersionMap.get] at h
    split at h
    · rename_i t' he
      simp only [Option.some_inj] at h
      subst h
      exact lookupKV_mem he
    · split at h
      · split at h
        · split at h
          · split at h
            · exact lookupKV_mem h
            · simp at h
          · simp at h
        · simp at h
      · simp at h

theorem alookup_mem {K V : Type} [DecidableEq K] {k : K} {v : V} {l : List (K × V)}
    (h : alookup k l = some v) : (k, v) ∈ l := by
  induction l with
  | nil => simp [alookup] at h
  | cons kv rest ih =>
    simp only [alookup] at h
    by_cases hk : kv.1 = k
    · rw [if_pos hk] at h
      have hkv : kv = (k, v) := by
        obtain ⟨a, b⟩ := kv
        simp only at hk h
        simp only [Option.some_inj] at h
        rw [hk, h]
      rw [hkv]
      simp
    · rw [if_neg hk] at h
      exact List.mem_cons_of_mem _ (ih h)

theorem resolveImport_mem_allCatalogIds {g : CompositionGraph}
    {imp : ForeignInterfacePath} {d : PkgId}
    (h : resolveImport g imp = .ok d) : d ∈ allCatalogIds g := by
  simp only [resolveImport] at h
  split at h
  · simp at h
  · rename_i vm hm
    split at h
    · simp at h
    · rename_i d' hg
      simp only [Except.ok.injEq] at h
      subst h
      have hmem := getOrLatest_mem hg
      have hpair := alookup_mem hm
      simp only [allCatalogIds]
      exact mem_foldr_append
        (List.mem_map_of_mem (fun kv => kv.2.valuesList) hpair) _ hmem

theorem importsOf_le_maxImportsLen (g : CompositionGraph) (pid : PkgId) :
    (importsOf g pid).length ≤ maxImportsLen g := by
  simp only [importsOf, maxImportsLen]
  rcases hm : alookup pid g.importedInterfaces with _ | l
  · simp
  · have hpair := alookup_mem hm
    simp only [Option.getD_some]
    exact mem_foldr_max hpair

theorem plo_extend_eq {g : CompositionGraph} {origin : PkgId} {s : LoadState}
    (inv : PloInv g origin s) (off : Nat) :
    indexSetExtend s.loadOrder (s.loadStack.drop off).reverse
      = s.loadOrder ++ (s.loadStack.drop off).reverse := by
  apply indexSetExtend_of_disjoint
  · intro x hx
    rw [List.mem_reverse] at hx
    have hx' : x ∈ s.loadStack := List.mem_of_mem_drop hx
    intro hlo
    exact inv.disj x hlo hx'
  · rw [List.nodup_reverse]
    exact inv.ls_nodup.sublist (List.drop_sublist off s.loadStack)

theorem plo_take_nodup {g : CompositionGraph} {origin : PkgId} {s : LoadState}
    (inv : PloInv g origin s) (off : Nat) : (s.loadStack.take off).Nodup :=
  inv.ls_nodup.sublist (List.take_sublist off s.loadStack)

theorem take_drop_disjoint {l : List PkgId} (h : l.Nodup) (off : Nat) :
    ∀ x ∈ l.drop off, x ∉ l.take off := by
  have := List.take_append_drop off l
  rw [← this] at h
  have hd := (List.nodup_append.mp h).2.2
  intro x hx hx'
  exact hd hx' hx

theorem plo_lo'_nodup {g : CompositionGraph} {origin : PkgId} {s : LoadState}
    (inv : PloInv g origin s) (off : Nat) :
    (s.loadOrder ++ (s.loadStack.drop off).reverse).Nodup := by
  apply List.Nodup.append inv.lo_nodup
  · rw [List.nodup_reverse]
    exact inv.ls_nodup.sublist (List.drop_sublist off s.loadStack)
  · intro x hx1 hx2
    rw [List.mem_reverse] at hx2
    exact inv.disj x hx1 (List.mem_of_mem_drop hx2)

theorem plo_disj' {g : CompositionGraph} {origin : PkgId} {s : LoadState}
    (inv : PloInv g origin s) (off : Nat) :
    ∀ x ∈ s.loadOrder ++ (s.loadStack.drop off).reverse, x ∉ s.loadStack.take off := by
  intro x hx hx'
  rcases List.mem_append.mp hx with hlo | hdr
  · exact inv.disj x hlo (List.mem_of_mem_take hx')
  · rw [List.mem_reverse] at hdr
    exact take_drop_disjoint inv.ls_nodup off x hdr hx'

theorem plo_lo'_closed {g : CompositionGraph} {origin : PkgId} {s : LoadState}
    {p : PkgId} {off : Nat} {rest : List (PkgId × Nat)}
    (hs : s.pstack = (p, off) :: rest) (inv : PloInv g origin s) :
    ∀ (j : Nat) (q : PkgId),
      (s.loadOrder ++ (s.loadStack.drop off).reverse)[j]? = some q →
      ∀ imp ∈ importsOf g q, ∃ d, resolveImport g imp = .ok d ∧
        ∃ i : Nat, i < j ∧ (s.loadOrder ++ (s.loadStack.drop off).reverse)[i]? = some d := by
  intro j q hq imp himp
  have hreste : ∀ b ∈ rest, b.2 ≤ off := by
    have := inv.offsets_sorted
    rw [hs, List.pairwise_cons] at this
    exact fun b hb => this.1 b hb
  by_cases hj : j < s.loadOrder.length
  · rw [List.getElem?_append_left hj] at hq
    obtain ⟨d, hres, i, hi, hd⟩ := inv.lo_closed j q hq imp himp
    have hij : i < s.loadOrder.length := lt_trans hi hj
    exact ⟨d, hres, i, hi, by rw [List.getElem?_append_left hij]; exact hd⟩
  · push_neg at hj
    rw [List.getElem?_append_right hj] at hq
    set dr := s.loadStack.drop off with hdr
    set j2 := j - s.loadOrder.length with hj2
    have hj2lt : j2 < dr.length := by
      have := (List.getElem?_eq_some_iff.mp hq).1
      simpa [List.length_reverse] using this
    rw [List.getElem?_reverse hj2lt] at hq
    have hqls : s.loadStack[off + (dr.length - 1 - j2)]? = some q := by
      rw [← List.getElem?_drop]
      exact hq
    set jq := off + (dr.length - 1 - j2) with hjq
    have hdrlen : dr.length = s.loadStack.length - off := by
      simp [hdr]
    obtain ⟨d, hres, hdisj⟩ := inv.ls_sound jq q hqls imp himp
    refine ⟨d, hres, ?_⟩
    rcases hdisj with hmemlo | ⟨j', hj'gt, hj'⟩ | hpst
    · obtain ⟨i, hi⟩ := List.mem_iff_getElem?.mp hmemlo
      have hilt : i < s.loadOrder.length := (List.getElem?_eq_some_iff.mp hi).1
      refine ⟨i, by omega, ?_⟩
      rw [List.getElem?_append_left hilt]
      exact hi
    · have hj'lt : j' < s.loadStack.length := (List.getElem?_eq_some_iff.mp hj').1
      have hoffle : off ≤ j' := by omega
      have hdget : dr[j' - off]? = some d := by
        rw [hdr, List.getElem?_drop]
        have : off + (j' - off) = j' := by omega
        rw [this]
        exact hj'
      have hj'off : j' - off < dr.length := by omega
      set i2 := dr.length - 1 - (j' - off) with hi2
      have hi2lt : i2 < dr.length := by omega
      refine ⟨s.loadOrder.length + i2, by omega, ?_⟩
      rw [List.getElem?_append_right (by omega)]
      have : s.loadOrder.length + i2 - s.loadOrder.length = i2 := by omega
      rw [this, List.getElem?_reverse hi2lt]
      have : dr.length - 1 - i2 = j' - off := by omega
      rw [this]
      exact hdget
    · exfalso
      rw [hs] at hpst
      rcases List.mem_cons.mp hpst with heq | hmem
      · have : jq + 1 = off := congrArg Prod.snd heq
        omega
      · have := hreste _ hmem
        simp only at this
        omega

theorem not_mem_of_idxOf_eq_none {x : PkgId} {l : List PkgId}
    (h : idxOf x l = none) : x ∉ l := by
  induction l with
  | nil => simp
  | cons y rest ih =>
    simp only [idxOf] at h
    by_cases hy : y = x
    · rw [if_pos hy] at h
      simp at h
    · rw [if_neg hy] at h
      simp only [Option.map_eq_none'] at h
      simp only [List.mem_cons, not_or]
      exact ⟨fun he => hy he.symm, ih h⟩

theorem forall₂_mem_left {A B : Type} {R : A → B → Prop} {l1 : List A} {l2 : List B}
    (h : List.Forall₂ R l1 l2) : ∀ a ∈ l1, ∃ b ∈ l2, R a b := by
  induction h with
  | nil => simp
  | cons hr _ ih =>
    intro a ha
    rcases List.mem_cons.mp ha with rfl | ha'
    · exact ⟨_, by simp, hr⟩
    · obtain ⟨b, hb, hrb⟩ := ih a ha'
      exact ⟨b, by simp [hb], hrb⟩

theorem plo_step_skip {g : CompositionGraph} {origin : PkgId} {s : LoadState}
    {p : PkgId} {off : Nat} {rest : List (PkgId × Nat)}
    (hs : s.pstack = (p, off) :: rest) (inv : PloInv g origin s)
    (hmem : p ∈ s.loadOrder ++ (s.loadStack.drop off).reverse) :
    PloInv g origin ⟨rest, s.loadOrder ++ (s.loadStack.drop off).reverse,
      s.loadStack.take off, s.interfaces⟩ := by
  have hoffle : off ≤ s.loadStack.length := inv.offsets_le (p, off) (by rw [hs]; simp)
  have hlen : (s.loadStack.take off).length = off := by
    rw [List.length_take]
    omega
  have hpw := inv.offsets_sorted
  rw [hs, List.pairwise_cons] at hpw
  have hanchor : s.loadStack[0]? = some origin := by
    rcases inv.origin_anchor with ⟨hls, hlo, _⟩ | h
    · rw [hls, hlo] at hmem
      simp at hmem
    · exact h
  have hlsne : s.loadStack ≠ [] := by
    intro h
    rw [h] at hanchor
    simp at hanchor
  have hpos : ∀ e ∈ s.pstack, 1 ≤ e.2 := by
    rcases inv.offsets_pos with h | h
    · exact absurd h hlsne
    · exact h
  have hoffpos : 1 ≤ off := hpos (p, off) (by rw [hs]; simp)
  refine ⟨?_, ?_, ?_, ?_, ?_, ?_, ?_, ?_, ?_⟩
  · exact hpw.2
  · intro e he
    simp only
    rw [hlen]
    exact hpw.1 e he
  · exact plo_lo'_nodup inv off
  · exact plo_take_nodup inv off
  · exact plo_disj' inv off
  · exact plo_lo'_closed hs inv
  · intro j q hq imp himp
    simp only at hq
    have hjlt : j < off := by
      have := (List.getElem?_eq_some_iff.mp hq).1
      omega
    rw [List.getElem?_take_of_lt hjlt] at hq
    obtain ⟨d, hres, hdisj⟩ := inv.ls_sound j q hq imp himp
    refine ⟨d, hres, ?_⟩
    rcases hdisj with hlo0 | ⟨j', hj'gt, hj'⟩ | hpst
    · exact Or.inl (List.mem_append_left _ hlo0)
    · by_cases hj'lt : j' < off
      · exact Or.inr (Or.inl ⟨j', hj'gt, by
          simp only
          rw [List.getElem?_take_of_lt hj'lt]
          exact hj'⟩)
      · left
        apply List.mem_append_right
        rw [List.mem_reverse]
        have hj'len : j' < s.loadStack.length := (List.getElem?_eq_some_iff.mp hj').1
        have : (s.loadStack.drop off)[j' - off]? = some d := by
          rw [List.getElem?_drop]
          have : off + (j' - off) = j' := by omega
          rw [this]
          exact hj'
        exact List.mem_iff_getElem?.mpr ⟨j' - off, this⟩
    · rw [hs] at hpst
      rcases List.mem_cons.mp hpst with heq | hrest
      · have hd : d = p := congrArg Prod.fst heq
        exact Or.inl (hd ▸ hmem)
      · exact Or.inr (Or.inr hrest)
  · right
    simp only
    rw [List.getElem?_take_of_lt hoffpos]
    exact hanchor
  · right
    intro e he
    exact hpos e (by rw [hs]; exact List.mem_cons_of_mem _ he)

theorem plo_step_insert {g : CompositionGraph} {origin : PkgId} {s : LoadState}
    {p : PkgId} {off : Nat} {rest : List (PkgId × Nat)}
    {pushes : List (PkgId × Nat)} {ifs' : Interfaces}
    (hs : s.pstack = (p, off) :: rest) (inv : PloInv g origin s)
    (hcyc : idxOf p (s.loadStack.take off) = none)
    (hnm : p ∉ s.loadOrder ++ (s.loadStack.drop off).reverse)
    (hproc : processImports g (s.loadStack.take off ++ [p]).length (importsOf g p)
      [] s.interfaces = .ok (pushes, ifs')) :
    PloInv g origin ⟨pushes.reverse ++ rest,
      s.loadOrder ++ (s.loadStack.drop off).reverse,
      s.loadStack.take off ++ [p], ifs'⟩ := by
  have hoffle : off ≤ s.loadStack.length := inv.offsets_le (p, off) (by rw [hs]; simp)
  have hlen : (s.loadStack.take off).length = off := by
    rw [List.length_take]
    omega
  have hlen' : (s.loadStack.take off ++ [p]).length = off + 1 := by
    simp [hlen]
  have hpw := inv.offsets_sorted
  rw [hs, List.pairwise_cons] at hpw
  have hpmem : p ∉ s.loadStack.take off := not_mem_of_idxOf_eq_none hcyc
  obtain ⟨resolved, hpush, hfa⟩ := processImports_ok hproc
  rw [List.nil_append] at hpush
  have hpushsnd : ∀ e ∈ pushes, e.2 = (s.loadStack.take off ++ [p]).length := by
    intro e he
    rw [hpush] at he
    obtain ⟨d, _, hd⟩ := List.mem_map.mp he
    rw [← hd]
  have hrestle : ∀ b ∈ rest, b.2 ≤ off := fun b hb => hpw.1 b hb
  refine ⟨?_, ?_, ?_, ?_, ?_, ?_, ?_, ?_, ?_⟩
  · rw [List.pairwise_append]
    refine ⟨?_, hpw.2, ?_⟩
    · apply List.pairwise_of_forall_mem_list
      intro a ha b hb
      rw [hpushsnd a (List.mem_reverse.mp ha), hpushsnd b (List.mem_reverse.mp hb)]
    · intro a ha b hb
      have ha2 := hpushsnd a (List.mem_reverse.mp ha)
      have hb2 := hrestle b hb
      rw [ha2, hlen']
      omega
  · intro e he
    simp only
    rcases List.mem_append.mp he with hp | hr
    · rw [hpushsnd e (List.mem_reverse.mp hp)]
    · have := hrestle e hr
      rw [hlen']
      omega
  · exact plo_lo'_nodup inv off
  · apply List.Nodup.append (plo_take_nodup inv off) (by simp)
    intro a ha hb
    rw [List.mem_singleton] at hb
    exact hpmem (hb ▸ ha)
  · intro x hx
    have h1 := plo_disj' inv off x hx
    simp only [List.mem_append, List.mem_singleton, not_or]
    exact ⟨h1, fun he => hnm (he ▸ hx)⟩
  · exact plo_lo'_closed hs inv
  · intro j q hq imp himp
    simp only at hq
    have hjlt : j < off + 1 := by
      have := (List.getElem?_eq_some_iff.mp hq).1
      omega
    by_cases hjoff : j < off
    · rw [List.getElem?_append_left (by omega)] at hq
      rw [List.getElem?_take_of_lt hjoff] at hq
      obtain ⟨d, hres, hdisj⟩ := inv.ls_sound j q hq imp himp
      refine ⟨d, hres, ?_⟩
      rcases hdisj with hlo0 | ⟨j', hj'gt, hj'⟩ | hpst
      · exact Or.inl (List.mem_append_left _ hlo0)
      · by_cases hj'lt : j' < off
        · refine Or.inr (Or.inl ⟨j', hj'gt, ?_⟩)
          simp only
          rw [List.getElem?_append_left (by omega), List.getElem?_take_of_lt hj'lt]
          exact hj'
        · left
          apply List.mem_append_right
          rw [List.mem_reverse]
          have hj'len : j' < s.loadStack.length := (List.getElem?_eq_some_iff.mp hj').1
          have : (s.loadStack.drop off)[j' - off]? = some d := by
            rw [List.getElem?_drop]
            have : off + (j' - off) = j' := by omega
            rw [this]
            exact hj'
          exact List.mem_iff_getElem?.mpr ⟨j' - off, this⟩
      · rw [hs] at hpst
        rcases List.mem_cons.mp hpst with heq | hrest
        · have hd : d = p := congrArg Prod.fst heq
          have hoffeq : j + 1 = off := congrArg Prod.snd heq
          refine Or.inr (Or.inl ⟨off, by omega, ?_⟩)
          simp only
          rw [List.getElem?_append_right (by omega), hlen]
          subst hd
          simp
        · exact Or.inr (Or.inr (List.mem_append_right _ hrest))
    · have hjeq : j = off := by omega
      subst hjeq
      rw [List.getElem?_append_right (by omega), hlen] at hq
      simp only [Nat.sub_self] at hq
      rw [show ([p] : List PkgId)[(0 : Nat)]? = some p from rfl] at hq
      have hqp : p = q := Option.some_inj.mp hq
      subst hqp
      obtain ⟨d, hd, hres⟩ := forall₂_mem_left hfa imp himp
      refine ⟨d, hres, Or.inr (Or.inr ?_)⟩
      apply List.mem_append_left
      rw [List.mem_reverse, hpush]
      simp only [hlen']
      exact List.mem_map_of_mem _ hd
  · rcases inv.origin_anchor with ⟨hls, hlo, hpk⟩ | h
    · right
      rw [hs] at hpk
      injection hpk with h1 h2
      have hpe : p = origin := congrArg Prod.fst h1
      simp only
      rw [hls]
      simp [hpe]
    · right
      have hlsne : s.loadStack ≠ [] := by
        intro hh
        rw [hh] at h
        simp at h
      have hpos : ∀ e ∈ s.pstack, 1 ≤ e.2 := by
        rcases inv.offsets_pos with hh | hh
        · exact absurd hh hlsne
        · exact hh
      have hoffpos : 1 ≤ off := hpos (p, off) (by rw [hs]; simp)
      simp only
      rw [List.getElem?_append_left (by omega), List.getElem?_take_of_lt hoffpos]
      exact h
  · right
    intro e he
    rcases List.mem_append.mp he with hp | hr
    · rw [hpushsnd e (List.mem_reverse.mp hp), hlen']
      omega
    · rcases inv.offsets_pos with hh | hh
      · rcases inv.origin_anchor with ⟨_, _, hpk⟩ | ha
        · rw [hs] at hpk
          injection hpk with h1 h2
          rw [h2] at hr
          simp at hr
        · rw [hh] at ha
          simp at ha
      · exact hh e (by rw [hs]; exact List.mem_cons_of_mem _ hr)

theorem plo_final {g : CompositionGraph} {origin : PkgId} {s : LoadState}
    (inv : PloInv g origin s) (hps : s.pstack = []) :
    (s.loadOrder ++ s.loadStack.reverse).Nodup
    ∧ (s.loadOrder ++ s.loadStack.reverse).getLast? = some origin
    ∧ SoundOrder g (s.loadOrder ++ s.loadStack.reverse) := by
  have hanchor : s.loadStack[0]? = some origin := by
    rcases inv.origin_anchor with ⟨_, _, hpk⟩ | h
    · rw [hps] at hpk
      simp at hpk
    · exact h
  have hlsne : s.loadStack ≠ [] := by
    intro h
    rw [h] at hanchor
    simp at hanchor
  refine ⟨?_, ?_, ?_⟩
  · apply List.Nodup.append inv.lo_nodup (by rw [List.nodup_reverse]; exact inv.ls_nodup)
    intro x hx1 hx2
    exact inv.disj x hx1 (List.mem_reverse.mp hx2)
  · rw [List.getLast?_append]
    have : s.loadStack.reverse.getLast? = some origin := by
      rw [List.getLast?_reverse]
      rw [← List.head?_eq_getElem?] at hanchor
      exact hanchor
    rw [this]
    rfl
  · intro j q hq imp himp
    by_cases hj : j < s.loadOrder.length
    · rw [List.getElem?_append_left hj] at hq
      obtain ⟨d, hres, i, hi, hd⟩ := inv.lo_closed j q hq imp himp
      exact ⟨d, hres, i, hi, by
        rw [List.getElem?_append_left (lt_trans hi hj)]
        exact hd⟩
    · push_neg at hj
      rw [List.getElem?_append_right hj] at hq
      set j2 := j - s.loadOrder.length with hj2
      have hj2lt : j2 < s.loadStack.length := by
        have := (List.getElem?_eq_some_iff.mp hq).1
        simpa using this
      rw [List.getElem?_reverse hj2lt] at hq
      set jq := s.loadStack.length - 1 - j2 with hjq
      obtain ⟨d, hres, hdisj⟩ := inv.ls_sound jq q hq imp himp
      refine ⟨d, hres, ?_⟩
      rcases hdisj with hmemlo | ⟨j', hj'gt, hj'⟩ | hpst
      · obtain ⟨i, hi⟩ := List.mem_iff_getElem?.mp hmemlo
        have hilt : i < s.loadOrder.length := (List.getElem?_eq_some_iff.mp hi).1
        refine ⟨i, by omega, ?_⟩
        rw [List.getElem?_append_left hilt]
        exact hi
      · have hj'lt : j' < s.loadStack.length := (List.getElem?_eq_some_iff.mp hj').1
        set i2 := s.loadStack.length - 1 - j' with hi2
        have hi2lt : i2 < s.loadStack.length := by omega
        refine ⟨s.loadOrder.length + i2, by omega, ?_⟩
        rw [List.getElem?_append_right (by omega)]
        have heq : s.loadOrder.length + i2 - s.loadOrder.length = i2 := by omega
        rw [heq, List.getElem?_reverse hi2lt]
        have heq2 : s.loadStack.length - 1 - i2 = j' := by omega
        rw [heq2]
        exact hj'
      · rw [hps] at hpst
        simp at hpst

theorem ploLoop_sound (g : CompositionGraph) (origin : PkgId) :
    ∀ (fuel : Nat) (s : LoadState) (order : List PkgId) (ifs : Interfaces),
      PloInv g origin s → ploLoop g fuel s = .ok (order, ifs) →
      order.Nodup ∧ order.getLast? = some origin ∧ SoundOrder g order := by
  intro fuel
  induction fuel with
  | zero =>
    intro s order ifs inv hok
    rcases hps : s.pstack with _ | ⟨⟨p, off⟩, rest⟩
    · rw [ploLoop, hps] at hok
      simp only [Except.ok.injEq, Prod.mk.injEq] at hok
      rw [← hok.1]
      exact plo_final inv hps
    · rw [ploLoop, hps] at hok
      exact absurd hok (by simp)
  | succ fuel ih =>
    intro s order ifs inv hok
    rcases hps : s.pstack with _ | ⟨⟨p, off⟩, rest⟩
    · rw [ploLoop, hps] at hok
      simp only [Except.ok.injEq, Prod.mk.injEq] at hok
      rw [← hok.1]
      exact plo_final inv hps
    · rw [ploLoop, hps] at hok
      simp only at hok
      rw [plo_extend_eq inv off] at hok
      split at hok
      · exact absurd hok (by simp)
      · rename_i hcyc
        split at hok
        · rename_i hmem
          exact ih _ order ifs (plo_step_skip hps inv hmem) hok
        · rename_i hnm
          have hpnotmem : p ∉ s.loadStack.take off := not_mem_of_idxOf_eq_none hcyc
          rw [indexSetInsert_of_not_mem hpnotmem] at hok
          split at hok
          · exact absurd hok (by simp)
          · rename_i pushes ifs2 hproc
            exact ih _ order ifs (plo_step_insert hps inv hcyc hnm hproc) hok

theorem ploInv_init (g : CompositionGraph) (origin : PkgId) :
    PloInv g origin ⟨[(origin, 0)], [], [], []⟩ := by
  refine ⟨?_, ?_, ?_, ?_, ?_, ?_, ?_, ?_, ?_⟩
  · simp
  · intro e he
    simp only [List.mem_singleton] at he
    simp [he]
  · simp
  · simp
  · simp
  · intro j q hq
    simp at hq
  · intro j q hq
    simp at hq
  · exact Or.inl ⟨rfl, rfl, rfl⟩
  · exact Or.inl rfl

theorem forall₂_mem_right {A B : Type} {R : A → B → Prop} {l1 : List A} {l2 : List B}
    (h : List.Forall₂ R l1 l2) : ∀ b ∈ l2, ∃ a ∈ l1, R a b := by
  induction h with
  | nil => simp
  | cons hr _ ih =>
    intro b hb
    rcases List.mem_cons.mp hb with rfl | hb'
    · exact ⟨_, by simp, hr⟩
    · obtain ⟨a, ha, hra⟩ := ih b hb'
      exact ⟨a, by simp [ha], hra⟩

theorem mem_loadUniverse {g : CompositionGraph} {s : LoadState} {x : PkgId} :
    x ∈ loadUniverse g s
      ↔ x ∈ allCatalogIds g ∨ x ∈ s.pstack.map Prod.fst ∨ x ∈ s.loadStack := by
  simp [loadUniverse, Finset.mem_union, List.mem_toFinset, or_assoc]

theorem resolveImport_error_shape {g : CompositionGraph} {imp : ForeignInterfacePath}
    {e : LoadPackageError} (h : resolveImport g imp = .error e) :
    (∃ n, e = .missingPackageDependency n) ∨ (∃ n v, e = .cannotResolvePackageVersion n v) := by
  simp only [resolveImport] at h
  split at h
  · simp only [Except.error.injEq] at h
    exact Or.inl ⟨_, h.symm⟩
  · split at h
    · simp only [Except.error.injEq] at h
      exact Or.inr ⟨_, _, h.symm⟩
    · simp at h

theorem remainingCount_skip_le {g : CompositionGraph} {s : LoadState}
    {p : PkgId} {off : Nat} {rest : List (PkgId × Nat)} {ifs : Interfaces}
    (hs : s.pstack = (p, off) :: rest) :
    remainingCount g ⟨rest, indexSetExtend s.loadOrder (s.loadStack.drop off).reverse,
        s.loadStack.take off, ifs⟩ ≤ remainingCount g s := by
  apply Finset.card_le_card
  intro x hx
  rw [Finset.mem_filter] at hx ⊢
  obtain ⟨hu, hcond⟩ := hx
  simp only [Decidable.not_not] at hcond
  rw [mem_loadUniverse] at hu
  simp only at hu hcond
  have hnotlo := hcond.1
  have hnotls := hcond.2
  rw [mem_indexSetExtend] at hnotlo
  push_neg at hnotlo
  have hxdr : x ∉ (s.loadStack.drop off).reverse := hnotlo.2
  rw [List.mem_reverse] at hxdr
  have hxls0 : x ∉ s.loadStack := by
    intro hmem
    rcases List.mem_append.mp ((List.take_append_drop off s.loadStack) ▸ hmem) with h1 | h2
    · exact hnotls h1
    · exact hxdr h2
  constructor
  · rw [mem_loadUniverse]
    rcases hu with h | h | h
    · exact Or.inl h
    · refine Or.inr (Or.inl ?_)
      rw [hs]
      simp only [List.map_cons, List.mem_cons]
      exact Or.inr h
    · exact absurd (List.mem_of_mem_take h) hxls0
  · exact ⟨hnotlo.1, hxls0⟩

theorem pushes_fst_mem_allCatalogIds {g : CompositionGraph} {L : Nat}
    {imps : List ForeignInterfacePath} {pushes : List (PkgId × Nat)}
    {ifs0 ifs : Interfaces}
    (hproc : processImports g L imps [] ifs0 = .ok (pushes, ifs)) :
    ∀ e ∈ pushes, e.1 ∈ allCatalogIds g := by
  obtain ⟨resolved, hpush, hfa⟩ := processImports_ok hproc
  rw [List.nil_append] at hpush
  intro e he
  rw [hpush] at he
  obtain ⟨d, hd, hde⟩ := List.mem_map.mp he
  obtain ⟨imp, _, hres⟩ := forall₂_mem_right hfa d hd
  rw [← hde]
  exact resolveImport_mem_allCatalogIds hres

theorem remainingCount_insert_lt {g : CompositionGraph} {s : LoadState}
    {p : PkgId} {off : Nat} {rest : List (PkgId × Nat)}
    {pushes : List (PkgId × Nat)} {ifs : Interfaces}
    (hs : s.pstack = (p, off) :: rest)
    (hcyc : p ∉ s.loadStack.take off)
    (hnm : p ∉ indexSetExtend s.loadOrder (s.loadStack.drop off).reverse)
    (hpush : ∀ e ∈ pushes, e.1 ∈ allCatalogIds g) :
    remainingCount g ⟨pushes.reverse ++ rest,
        indexSetExtend s.loadOrder (s.loadStack.drop off).reverse,
        indexSetInsert p (s.loadStack.take off), ifs⟩ < remainingCount g s := by
  have hpmem : p ∈ (loadUniverse g s).filter
      (fun x => x ∉ s.loadOrder ∧ x ∉ s.loadStack) := by
    rw [Finset.mem_filter]
    constructor
    · rw [mem_loadUniverse]
      refine Or.inr (Or.inl ?_)
      rw [hs]
      simp
    · have hnlo := hnm
      rw [mem_indexSetExtend] at hnlo
      push_neg at hnlo
      have hpdr : p ∉ s.loadStack.drop off := by
        intro hmem
        exact hnlo.2 (List.mem_reverse.mpr hmem)
      refine ⟨hnlo.1, ?_⟩
      intro hmem
      rcases List.mem_append.mp ((List.take_append_drop off s.loadStack) ▸ hmem) with h1 | h2
      · exact hcyc h1
      · exact hpdr h2
  calc remainingCount g ⟨pushes.reverse ++ rest,
        indexSetExtend s.loadOrder (s.loadStack.drop off).reverse,
        indexSetInsert p (s.loadStack.take off), ifs⟩
      ≤ (((loadUniverse g s).filter
          (fun x => x ∉ s.loadOrder ∧ x ∉ s.loadStack)).erase p).card := by
        apply Finset.card_le_card
        intro x hx
        rw [Finset.mem_filter] at hx
        obtain ⟨hu, hcond⟩ := hx
        simp only at hu hcond
        have hnotlo := hcond.1
        have hnotls' := hcond.2
        rw [mem_indexSetInsert] at hnotls'
        push_neg at hnotls'
        rw [mem_indexSetExtend] at hnotlo
        push_neg at hnotlo
        have hxdr : x ∉ s.loadStack.drop off := by
          intro hmem
          exact hnotlo.2 (List.mem_reverse.mpr hmem)
        have hxls0 : x ∉ s.loadStack := by
          intro hmem
          rcases List.mem_append.mp
              ((List.take_append_drop off s.loadStack) ▸ hmem) with h1 | h2
          · exact hnotls'.1 h1
          · exact hxdr h2
        rw [Finset.mem_erase, Finset.mem_filter]
        refine ⟨hnotls'.2, ?_, hnotlo.1, hxls0⟩
        rw [mem_loadUniverse] at hu ⊢
        rcases hu with h | h | h
        · exact Or.inl h
        · rcases List.mem_map.mp h with ⟨e, he, hex⟩
          rcases List.mem_append.mp he with h1 | h2
          · left
            rw [← hex]
            exact hpush e (List.mem_reverse.mp h1)
          · refine Or.inr (Or.inl ?_)
            rw [hs]
            simp only [List.map_cons, List.mem_cons]
            exact Or.inr (List.mem_map.mpr ⟨e, h2, hex⟩)
        · rw [mem_indexSetInsert] at h
          rcases h with h1 | h2
          · exact absurd (List.mem_of_mem_take h1) hxls0
          · exact absurd h2 hnotls'.2
    _ < ((loadUniverse g s).filter (fun x => x ∉ s.loadOrder ∧ x ∉ s.loadStack)).card := by
        apply Finset.card_erase_lt_of_mem hpmem

theorem ploLoop_no_outOfFuel (g : CompositionGraph) :
    ∀ (fuel : Nat) (s : LoadState), loadMeasure g s < fuel →
      ploLoop g fuel s ≠ .error .outOfFuel := by
  intro fuel
  induction fuel with
  | zero =>
    intro s hm
    exact absurd hm (by omega)
  | succ fuel ih =>
    intro s hm
    rcases hps : s.pstack with _ | ⟨⟨p, off⟩, rest⟩
    · rw [ploLoop, hps]
      simp
    · rw [ploLoop, hps]
      simp only
      split
      · simp
      · rename_i hcyc
        split
        · apply ih
          have h1 := @remainingCount_skip_le g s p off rest s.interfaces hps
          have hmul := Nat.mul_le_mul_right (maxImportsLen g + 1) h1
          simp only [loadMeasure, hps, List.length_cons] at hm ⊢
          omega
        · rename_i hnm
          rcases hproc : processImports g
              (indexSetInsert p (s.loadStack.take off)).length
              (importsOf g p) [] s.interfaces with e | ⟨pushes, ifs2⟩
          · obtain ⟨imp, _, hres⟩ := processImports_error hproc
            rcases resolveImport_error_shape hres with ⟨n, he⟩ | ⟨n, v, he⟩ <;>
              subst he <;> simp
          · refine ih ⟨pushes.reverse ++ rest,
              indexSetExtend s.loadOrder (s.loadStack.drop off).reverse,
              indexSetInsert p (s.loadStack.take off), ifs2⟩ ?_
            have hpnm : p ∉ s.loadStack.take off := not_mem_of_idxOf_eq_none hcyc
            have h1 := @remainingCount_insert_lt g s p off rest pushes ifs2 hps hpnm hnm
              (pushes_fst_mem_allCatalogIds hproc)
            obtain ⟨resolved, hpush, hfa⟩ := processImports_ok hproc
            rw [List.nil_append] at hpush
            have hplen : pushes.length ≤ maxImportsLen g := by
              rw [hpush, List.length_map, ← List.Forall₂.length_eq hfa]
              exact importsOf_le_maxImportsLen g p
            have h2 : remainingCount g ⟨pushes.reverse ++ rest,
                indexSetExtend s.loadOrder (s.loadStack.drop off).reverse,
                indexSetInsert p (s.loadStack.take off), ifs2⟩ + 1
                ≤ remainingCount g s := h1
            have hmul := Nat.mul_le_mul_right (maxImportsLen g + 1) h2
            rw [Nat.succ_mul] at hmul
            simp only [loadMeasure, hps, List.length_cons, List.length_append,
              List.length_reverse] at hm ⊢
            omega

theorem ploLoop_error_resolution (g : CompositionGraph) (origin : PkgId) :
    ∀ (fuel : Nat) (s : LoadState) (e : LoadPackageError), ReachInv g origin s →
      ploLoop g fuel s = .error e →
      e = .outOfFuel ∨ (∃ c, e = .packageCycle c) ∨
        (∃ p imp, Reach g origin p ∧ imp ∈ importsOf g p
          ∧ resolveImport g imp = .error e) := by
  intro fuel
  induction fuel with
  | zero =>
    intro s e hri herr
    rcases hps : s.pstack with _ | ⟨⟨p, off⟩, rest⟩
    · rw [ploLoop, hps] at herr
      exact absurd herr (by simp)
    · rw [ploLoop, hps] at herr
      simp only [Except.error.injEq] at herr
      exact Or.inl herr.symm
  | succ fuel ih =>
    intro s e hri herr
    rcases hps : s.pstack with _ | ⟨⟨p, off⟩, rest⟩
    · rw [ploLoop, hps] at herr
      exact absurd herr (by simp)
    · have hpreach : Reach g origin p := hri.1 (p, off) (by rw [hps]; simp)
      rw [ploLoop, hps] at herr
      simp only at herr
      split at herr
      · simp only [Except.error.injEq] at herr
        exact Or.inr (Or.inl ⟨_, herr.symm⟩)
      · rename_i hcyc
        split at herr
        · apply ih _ e _ herr
          constructor
          · intro e' he'
            exact hri.1 e' (by rw [hps]; exact List.mem_cons_of_mem _ he')
          · intro x hx
            exact hri.2 x (List.mem_of_mem_take hx)
        · rename_i hnm
          rcases hproc : processImports g
              (indexSetInsert p (s.loadStack.take off)).length
              (importsOf g p) [] s.interfaces with e2 | ⟨pushes, ifs2⟩ <;>
            rw [hproc] at herr
          · simp only [Except.error.injEq] at herr
            obtain ⟨imp, himp, hres⟩ := processImports_error hproc
            exact Or.inr (Or.inr ⟨p, imp, hpreach, himp, herr ▸ hres⟩)
          · apply ih _ e _ herr
            obtain ⟨resolved, hpush, hfa⟩ := processImports_ok hproc
            rw [List.nil_append] at hpush
            constructor
            · intro e' he'
              rcases List.mem_append.mp he' with h1 | h2
              · rw [List.mem_reverse, hpush] at h1
                obtain ⟨d, hd, hde⟩ := List.mem_map.mp h1
                obtain ⟨imp, himp, hres⟩ := forall₂_mem_right hfa d hd
                have hedge : edgeStep g p d := ⟨imp, himp, hres⟩
                rw [← hde]
                exact Relation.ReflTransGen.tail hpreach hedge
              · exact hri.1 e' (by rw [hps]; exact List.mem_cons_of_mem _ h2)
            · intro x hx
              rw [mem_indexSetInsert] at hx
              rcases hx with h1 | h2
              · exact hri.2 x (List.mem_of_mem_take h1)
              · exact h2 ▸ hpreach

theorem reach_mem_order {g : CompositionGraph} {origin : PkgId} {order : List PkgId}
    (hlast : order.getLast? = some origin) (hsound : SoundOrder g order) :
    ∀ p, Reach g origin p → p ∈ order := by
  intro p hr
  induction hr with
  | refl => exact getLast?_mem hlast
  | tail hab hbc ihmem =>
    obtain ⟨j, hj⟩ := List.mem_iff_getElem?.mp ihmem
    obtain ⟨imp, himp, hres⟩ := hbc
    obtain ⟨d, hd, i, hilt, hdi⟩ := hsound j _ hj imp himp
    have hdc := Except.ok.inj (hd.symm.trans hres)
    exact List.mem_iff_getElem?.mpr ⟨i, hdc ▸ hdi⟩

theorem transGen_before {g : CompositionGraph} {order : List PkgId}
    (hsound : SoundOrder g order) :
    ∀ a b, Relation.TransGen (edgeStep g) a b →
      ∀ j : Nat, order[j]? = some a → ∃ i : Nat, i < j ∧ order[i]? = some b := by
  intro a b htg
  induction htg with
  | single hc =>
    intro j hj
    obtain ⟨imp, himp, hres⟩ := hc
    obtain ⟨d, hd, i, hi, hdi⟩ := hsound j a hj imp himp
    have hdc := Except.ok.inj (hd.symm.trans hres)
    exact ⟨i, hi, hdc ▸ hdi⟩
  | tail _ hedge ih =>
    intro j hj
    obtain ⟨i, hi, hbi⟩ := ih j hj
    obtain ⟨imp, himp, hres⟩ := hedge
    obtain ⟨d, hd, i', hi', hdi'⟩ := hsound i _ hbi imp himp
    have hdc := Except.ok.inj (hd.symm.trans hres)
    exact ⟨i', by omega, hdc ▸ hdi'⟩

theorem shadowLoop_events (g : CompositionGraph) (oracle : RuntimeOracle)
    (asyncMode : Bool) (ifsMap : Interfaces) (origin : PkgId) :
    ∀ (l : List PkgId) (linker : LinkerState) (evs : List Ev)
      (linker' : LinkerState) (evs' : List Ev),
      l.getLast? = some origin → l.Nodup →
      shadowLoop g oracle asyncMode ifsMap origin l linker evs
        = some (linker', evs', none) →
      evs' = evs ++ l.dropLast.map Ev.shadow := by
  intro l
  induction l with
  | nil =>
    intro linker evs linker' evs' hlast _ _
    simp at hlast
  | cons x rest ih =>
    intro linker evs linker' evs' hlast hnd hrun
    cases rest with
    | nil =>
      simp only [List.getLast?_singleton, Option.some_inj] at hlast
      rw [shadowLoop, if_pos hlast] at hrun
      simp only [Option.some_inj, Prod.mk.injEq] at hrun
      simp [hrun.2.1.symm]
    | cons y t =>
      have hlast' : (y :: t).getLast? = some origin := by
        rw [← List.getLast?_cons_cons]
        exact hlast
      have hxne : x ≠ origin := by
        intro he
        have homem : origin ∈ y :: t := getLast?_mem hlast'
        rw [List.nodup_cons] at hnd
        exact hnd.1 (he ▸ homem)
      simp only [shadowLoop, if_neg hxne] at hrun
      split at hrun
      · simp at hrun
      · rename_i pkg hpkg
        split at hrun
        · exact absurd hrun (by simp)
        · simp at hrun
        · rename_i linker2 hres
          have hnd' : (y :: t).Nodup := (List.nodup_cons.mp hnd).2
          have := ih linker2 (evs ++ [Ev.shadow x]) linker' evs' hlast' hnd' hrun
          rw [this]
          simp

/-- C4: topological correctness of package_load_order and of the
instantiate loop.  Whenever package_load_order succeeds, the returned
sequence has no duplicates, ends with the origin, and lists every package
after all packages it depends on (every import of a listed package resolves
to a package listed strictly earlier).  Correspondingly, every successful
instantiate (blocking or suspending) shadow-instantiates exactly the
dependencies, in load order, before instantiating the target last. -/
theorem c4_load_order_topological :
    (∀ (g : CompositionGraph) (origin : PkgId) (order : List PkgId) (ifs : Interfaces),
        packageLoadOrder g origin = .ok (order, ifs) →
        order.Nodup ∧ order.getLast? = some origin ∧ SoundOrder g order)
    ∧ (∀ (g : CompositionGraph) (oracle : RuntimeOracle) (asyncMode : Bool)
        (origin : PkgId) (linker : LinkerState) (g' : CompositionGraph)
        (linker' : LinkerState) (evs : List Ev) (tok : Nat),
        instantiateCore g oracle asyncMode origin linker
          = some (g', linker', evs, .ok tok) →
        ∃ order ifs, packageLoadOrder g origin = .ok (order, ifs)
          ∧ SoundOrder g order ∧ order.getLast? = some origin
          ∧ evs = order.dropLast.map Ev.shadow ++ [Ev.target origin]) := by
  constructor
  · intro g origin order ifs hok
    rw [packageLoadOrder] at hok
    exact ploLoop_sound g origin _ _ order ifs (ploInv_init g origin) hok
  · intro g oracle asyncMode origin linker g' linker' evs tok hrun
    simp only [instantiateCore] at hrun
    split at hrun
    · simp at hrun
    · rename_i order ifs hplo
      split at hrun
      · simp at hrun
      · rename_i package hpkg
        split at hrun
        · simp at hrun
        · split at hrun
          · simp at hrun
          · simp at hrun
          · rename_i linker2 evs2 hsl
            split at hrun
            · simp at hrun
            · rename_i tok2 hfin
              simp only [Option.some_inj, Prod.mk.injEq] at hrun
              obtain ⟨hg, hl, hevs, htok⟩ := hrun
              have h1 := ploLoop_sound g origin _ _ order ifs (ploInv_init g origin)
                (by rw [packageLoadOrder] at hplo; exact hplo)
              have hevents := shadowLoop_events g oracle asyncMode ifs origin order
                linker [] linker2 evs2 h1.2.1 h1.1 hsl
              refine ⟨order, ifs, hplo, h1.2.2, h1.2.1, ?_⟩
              rw [← hevs, hevents]
              simp

theorem c4_load_order_topological_witness :
    ([3, 2, 1, 0] : List PkgId).Nodup
    ∧ ([3, 2, 1, 0] : List PkgId).getLast? = some 0
    ∧ SoundOrder gC4dia [3, 2, 1, 0] :=
  c4_load_order_topological.1 gC4dia 0 [3, 2, 1, 0]
    [(1, ["x".toList]), (2, ["y".toList]), (3, ["w".toList, "z".toList])] (by rfl)

/-- C5: cycle detection.  First, for every catalogue whose reachable imports
all resolve but whose resolved dependency relation has a cycle reachable
from the origin, package_load_order fails with PackageCycle.  Second, for
the concrete catalogue of two mutually importing packages a and b, the
reported chain is [a, b, a] (first repetition to its re-encounter), and
instantiate on it fails with exactly that PackageCycle error. -/
theorem c5_cycle_detection :
    (∀ (g : CompositionGraph) (origin : PkgId),
        (∀ p imp, Reach g origin p → imp ∈ importsOf g p →
          ∃ d, resolveImport g imp = .ok d) →
        (∃ p, Reach g origin p ∧ Relation.TransGen (edgeStep g) p p) →
        ∃ chain, packageLoadOrder g origin = .error (.packageCycle chain))
    ∧ packageLoadOrder gC5cyc 0
        = .error (.packageCycle ("a".toList :: "b".toList :: "a".toList :: []))
    ∧ (∀ (oracle : RuntimeOracle) (linker : LinkerState),
        instantiateS gC5cyc oracle 0 linker
          = some (gC5cyc, linker, [],
              .error (.loadPackageError
                (.packageCycle ("a".toList :: "b".toList :: "a".toList :: []))))) := by
  refine ⟨?_, by rfl, ?_⟩
  · intro g origin hres hcyc
    rcases h : packageLoadOrder g origin with e | ⟨order, ifs⟩
    · have hri : ReachInv g origin ⟨[(origin, 0)], [], [], []⟩ := by
        constructor
        · intro e' he'
          simp only [List.mem_singleton] at he'
          rw [he']
          exact Relation.ReflTransGen.refl
        · intro x hx
          simp at hx
      rw [packageLoadOrder] at h
      have hclass := ploLoop_error_resolution g origin _ _ e hri h
      rcases hclass with hoo | ⟨c, hc⟩ | ⟨p, imp, hrp, himp, herr⟩
      · exfalso
        subst hoo
        exact ploLoop_no_outOfFuel g _ ⟨[(origin, 0)], [], [], []⟩
          (Nat.lt_succ_self _) h
      · exact ⟨c, by rw [hc]⟩
      · obtain ⟨d, hd⟩ := hres p imp hrp himp
        rw [herr] at hd
        exact absurd hd (by simp)
    · exfalso
      rw [packageLoadOrder] at h
      obtain ⟨hnd, hlast, hsound⟩ :=
        ploLoop_sound g origin _ _ order ifs (ploInv_init g origin) h
      obtain ⟨p, hrp, htg⟩ := hcyc
      have hpmem := reach_mem_order hlast hsound p hrp
      obtain ⟨j, hj⟩ := List.mem_iff_getElem?.mp hpmem
      obtain ⟨i, hi, hip⟩ := transGen_before hsound p p htg j hj
      obtain ⟨hjl, hjg⟩ := List.getElem?_eq_some_iff.mp hj
      obtain ⟨hil, hig⟩ := List.getElem?_eq_some_iff.mp hip
      have : i = j := (List.Nodup.getElem_inj_iff hnd).mp (hig.trans hjg.symm)
      omega
  · intro oracle linker
    have hplo : packageLoadOrder gC5cyc 0
        = .error (.packageCycle ("a".toList :: "b".toList :: "a".toList :: [])) := by
      rfl
    simp [instantiateS, instantiateCore, hplo]

theorem c5_cycle_detection_witness :
    ∃ chain, packageLoadOrder gC5cyc 0 = .error (.packageCycle chain) := by
  have hres : ∀ p imp, Reach gC5cyc 0 p → imp ∈ importsOf gC5cyc p →
      ∃ d, resolveImport gC5cyc imp = .ok d := by
    intro p imp hreach himp
    by_cases h0 : p = 0
    · subst h0
      have himp' : imp = ⟨"b".toList, "i".toList, none⟩ := by
        simpa [importsOf, gC5cyc, alookup] using himp
      subst himp'
      exact ⟨1, by rfl⟩
    · by_cases h1 : p = 1
      · subst h1
        have himp' : imp = ⟨"a".toList, "j".toList, none⟩ := by
          simpa [importsOf, gC5cyc, alookup] using himp
        subst himp'
        exact ⟨0, by rfl⟩
      · exfalso
        have hne0 : (0 : PkgId) ≠ p := fun hh => h0 hh.symm
        have hne1 : (1 : PkgId) ≠ p := fun hh => h1 hh.symm
        simp [importsOf, gC5cyc, alookup, hne0, hne1] at himp
  have hstep01 : edgeStep gC5cyc 0 1 :=
    ⟨⟨"b".toList, "i".toList, none⟩, by decide, by rfl⟩
  have hstep10 : edgeStep gC5cyc 1 0 :=
    ⟨⟨"a".toList, "j".toList, none⟩, by decide, by rfl⟩
  exact c5_cycle_detection.1 gC5cyc 0 hres
    ⟨0, Relation.ReflTransGen.refl,
      Relation.TransGen.head hstep01 (Relation.TransGen.single hstep10)⟩

theorem c9_display_roundtrip_witness :
    dispIP ⟨some ("a".toList), "b".toList,
        some ⟨1, 2, 3, [], []⟩⟩ = "a/b@1.2.3".toList :=
  c9_display_roundtrip ("a/b@1.2.3".toList)
    ⟨some ("a".toList), "b".toList, some ⟨1, 2, 3, [], []⟩⟩
    (by rfl) (by decide)

/-- C2: duplicate packages are rejected but NOT rolled back.  When the
catalogue already holds the (name, version) pair and the component parses,
add_package returns DuplicatePackage{name, version}, leaves package_map,
exported_interfaces and imported_interfaces untouched, but keeps the entry
it inserted into dense storage before the conflict (and the type-store
extension of the parse): the resulting graph is the input graph with the
type store replaced and the new package appended, not the input graph
itself.  This contradicts the rollback clause of the claim. -/
theorem c2_duplicate_no_rollback :
    ∀ (parse : Bytes → Types → Except ExtErr (PackageShape × Types))
      (g : CompositionGraph) (name : Str) (version : Version) (bytes : Bytes)
      (tramp : Str → DynInterfaceTrampoline) (vm : VersionMap PkgId)
      (shape : PackageShape) (types' : Types),
      alookup name g.packageMap = some vm →
      vm.containsVersion version = true →
      parse bytes g.types = .ok (shape, types') →
      addPackage parse g name version bytes tramp
        = .err { g with types := types',
                        packages := g.packages ++ [⟨name, version, bytes, shape⟩] }
            (.duplicatePackage name version) := by
  intro parse g name version bytes tramp vm shape types' hvm hdup hparse
  have hsome : (lookupKV version vm.versions).isSome = true := by
    simpa [VersionMap.containsVersion] using hdup
  simp [addPackage, hparse, hvm, VersionMap.tryInsert, hsome]

theorem c2_duplicate_no_rollback_witness :
    addPackage (fun _ t => .ok (⟨[], [], []⟩, t)) gC5cyc ("a".toList)
        (Version.new 1 0 0) 0 (fun _ => .sync)
      = .err { gC5cyc with
               types := gC5cyc.types,
               packages := gC5cyc.packages
                 ++ [⟨"a".toList, Version.new 1 0 0, 0, ⟨[], [], []⟩⟩] }
          (.duplicatePackage ("a".toList) (Version.new 1 0 0)) :=
  c2_duplicate_no_rollback (fun _ t => .ok (⟨[], [], []⟩, t)) gC5cyc
    ("a".toList) (Version.new 1 0 0) 0 (fun _ => .sync) (vmOne 0)
    ⟨[], [], []⟩ gC5cyc.types (by rfl) (by rfl) (by rfl)

theorem alookup_aupdate_eq {K V : Type} [DecidableEq K] (k : K) (f : Option V → V)
    (l : List (K × V)) : alookup k (aupdate k f l) = some (f (alookup k l)) := by
  induction l with
  | nil => simp [aupdate, alookup]
  | cons hd tl ih =>
    obtain ⟨k', v⟩ := hd
    by_cases h : k' = k
    · subst h
      simp [aupdate, alookup]
    · simp [aupdate, alookup, h, ih]

theorem alookup_aupdate_ne {K V : Type} [DecidableEq K] (q k : K) (f : Option V → V)
    (l : List (K × V)) (hne : q ≠ k) : alookup q (aupdate k f l) = alookup q l := by
  induction l with
  | nil => simp [aupdate, alookup, hne.symm]
  | cons hd tl ih =>
    obtain ⟨k', v⟩ := hd
    by_cases h : k' = k
    · subst h
      simp [aupdate, alookup, hne.symm]
    · by_cases hq : k' = q
      · subst hq
        simp [aupdate, alookup, h]
      · simp [aupdate, alookup, h, hq, ih]

theorem importsExtend_refl (ii : List (PkgId × List ForeignInterfacePath)) :
    ImportsExtend ii ii := fun _ => ⟨[], by simp⟩

theorem importsExtend_trans {a b c : List (PkgId × List ForeignInterfacePath)}
    (h1 : ImportsExtend a b) (h2 : ImportsExtend b c) : ImportsExtend a c := by
  intro pid
  obtain ⟨t1, ht1⟩ := h1 pid
  obtain ⟨t2, ht2⟩ := h2 pid
  exact ⟨t1 ++ t2, by rw [ht2, ht1, List.append_assoc]⟩

theorem importOne_extends (pid : PkgId) (nm : Str)
    (ii ii' : List (PkgId × List ForeignInterfacePath))
    (h : importOne pid nm ii = .ok ii') : ImportsExtend ii ii' := by
  simp only [importOne] at h
  split at h
  · exact absurd h (by simp)
  · split at h
    · rename_i fp hfp
      simp only [Except.ok.injEq] at h
      rw [← h]
      intro q
      by_cases hq : q = pid
      · subst hq
        rw [alookup_aupdate_eq]
        exact ⟨[fp], by simp⟩
      · rw [alookup_aupdate_ne q pid _ ii hq]
        exact ⟨[], by simp⟩
    · simp only [Except.ok.injEq] at h
      rw [h]
      exact importsExtend_refl ii'

theorem scanUses_extends (types : Types) (pid : PkgId) :
    ∀ (us : List Nat) (ii ii' : List (PkgId × List ForeignInterfacePath)),
      scanUses types pid us ii = some (.ok ii') → ImportsExtend ii ii' := by
  intro us
  induction us with
  | nil =>
    intro ii ii' h
    simp only [scanUses, Option.some_inj, Except.ok.injEq] at h
    rw [h]
    exact importsExtend_refl ii'
  | cons u rest ih =>
    intro ii ii' h
    simp only [scanUses] at h
    split at h
    · exact absurd h (by simp)
    · split at h
      · exact ih ii ii' h
      · split at h
        · exact absurd h (by simp)
        · rename_i ii1 hio
          exact importsExtend_trans (importOne_extends pid _ ii ii1 hio) (ih ii1 ii' h)

theorem scanImports_extends (pid : PkgId) :
    ∀ (imps : List (Str × ItemKind)) (ii ii' : List (PkgId × List ForeignInterfacePath)),
      scanImports pid imps ii = .ok ii' → ImportsExtend ii ii' := by
  intro imps
  induction imps with
  | nil =>
    intro ii ii' h
    simp only [scanImports, Except.ok.injEq] at h
    rw [h]
    exact importsExtend_refl ii'
  | cons hd rest ih =>
    intro ii ii' h
    obtain ⟨nm, kind⟩ := hd
    simp only [scanImports] at h
    split at h
    · split at h
      · exact absurd h (by simp)
      · rename_i ii1 hio
        exact importsExtend_trans (importOne_extends pid nm ii ii1 hio) (ih ii1 ii' h)
    · exact ih ii ii' h

theorem rescanImports_extends (types : Types) :
    ∀ (pkgs : List (PkgId × Package)) (ii ii' : List (PkgId × List ForeignInterfacePath)),
      rescanImports types pkgs ii = some (.ok ii') → ImportsExtend ii ii' := by
  intro pkgs
  induction pkgs with
  | nil =>
    intro ii ii' h
    simp only [rescanImports, Option.some_inj, Except.ok.injEq] at h
    rw [h]
    exact importsExtend_refl ii'
  | cons hd rest ih =>
    intro ii ii' h
    obtain ⟨pid, pkg⟩ := hd
    simp only [rescanImports] at h
    split at h
    · exact absurd h (by simp)
    · exact absurd h (by simp)
    · rename_i ii1 hsu
      split at h
      · exact absurd h (by simp)
      · rename_i ii2 hsi
        exact importsExtend_trans (scanUses_extends types pid _ ii ii1 hsu)
          (importsExtend_trans (scanImports_extends pid _ ii1 ii2 hsi) (ih ii2 ii' h))

/-- C6: the per-package import lists are NOT deduplicated.  What does hold
is append-only growth: every successful add_package leaves each package's
previously recorded import list in place as a prefix, appending the fresh
whole-catalogue re-scan after it.  Consequently a second successful
add_package duplicates every import recorded by the first, refuting the
claimed at-most-once invariant: in the concrete two-package scenario, the
list recorded for package 0 ends up holding the path b/i twice. -/
theorem c6_imports_accumulate_duplicates :
    (∀ (parse : Bytes → Types → Except ExtErr (PackageShape × Types))
        (g : CompositionGraph) (name : Str) (version : Version) (bytes : Bytes)
        (tramp : Str → DynInterfaceTrampoline) (g' : CompositionGraph) (pid : PkgId),
        addPackage parse g name version bytes tramp = .ok g' pid →
        ImportsExtend g.importedInterfaces g'.importedInterfaces)
    ∧ (∃ g1 g2 : CompositionGraph,
        addPackage c6parse CompositionGraph.new ("a".toList) (Version.new 1 0 0) 0
            (fun _ => .sync) = .ok g1 0
        ∧ addPackage c6parse g1 ("b".toList) (Version.new 1 0 0) 1
            (fun _ => .sync) = .ok g2 1
        ∧ (alookup 0 g2.importedInterfaces).getD []
            = [⟨"b".toList, "i".toList, none⟩, ⟨"b".toList, "i".toList, none⟩]
        ∧ ¬ ((alookup 0 g2.importedInterfaces).getD []).Nodup) := by
  constructor
  · intro parse g name version bytes tramp g' pid hok
    simp only [addPackage] at hok
    split at hok
    · exact absurd hok (by simp)
    · split at hok
      · exact absurd hok (by simp)
      · split at hok
        · exact absurd hok (by simp)
        · split at hok
          · exact absurd hok (by simp)
          · exact absurd hok (by simp)
          · rename_i ii' hrescan
            simp only [AddResult.ok.injEq] at hok
            rw [← hok.1]
            exact rescanImports_extends _ _ _ _ hrescan
  · exact ⟨_, _, rfl, rfl, rfl, by decide⟩

theorem c6_imports_accumulate_duplicates_witness :
    ImportsExtend ([] : List (PkgId × List ForeignInterfacePath))
      [(0, [⟨"b".toList, "i".toList, none⟩])] :=
  c6_imports_accumulate_duplicates.1 c6parse CompositionGraph.new ("a".toList)
    (Version.new 1 0 0) 0 (fun _ => .sync)
    ⟨⟨[], 0⟩,
     [⟨"a".toList, Version.new 1 0 0, 0, ⟨[], [("b/i".toList, .instanceKind 0)], []⟩⟩],
     [("a".toList, ⟨[(Version.new 1 0 0, 0)], [(Version.new 1 0 0, [Version.new 1 0 0])]⟩)],
     [],
     [(0, [⟨"b".toList, "i".toList, none⟩])]⟩
    0 (by rfl)

/-- C7: synchronicity of shim installation.  InvalidTrampolineSynchronicity
arises exactly when the sync shadower (non-async mode) is handed an Async
trampoline; a Sync trampoline is always installed with the blocking
func_new, in the async mode too (on the suspending linker); and an Async
trampoline under the async shadower is installed with func_new_async. -/
theorem c7_trampoline_synchronicity :
    ∀ (asyncMode : Bool) (oracle : RuntimeOracle) (linker : LinkerState)
      (instanceName funcName : Str) (trampoline : DynInterfaceTrampoline),
      (shadowFuncFor asyncMode oracle linker instanceName funcName trampoline
          = .error .invalidTrampolineSynchronicity
        ↔ (asyncMode = false ∧ trampoline = .async))
      ∧ (trampoline = .sync →
          shadowFuncFor asyncMode oracle linker instanceName funcName trampoline
            = match oracle.funcNew instanceName funcName with
              | .error e => .error (.linkFuncInstantiationError e)
              | .ok _ => .ok (linker ++ [⟨instanceName, funcName, .blocking⟩]))
      ∧ (asyncMode = true → trampoline = .async →
          shadowFuncFor asyncMode oracle linker instanceName funcName trampoline
            = match oracle.funcNewAsync instanceName funcName with
              | .error e => .error (.linkFuncInstantiationError e)
              | .ok _ => .ok (linker ++ [⟨instanceName, funcName, .suspending⟩])) := by
  intro asyncMode oracle linker instanceName funcName trampoline
  refine ⟨?_, ?_, ?_⟩
  · cases asyncMode <;> cases trampoline
    · rcases h : oracle.funcNew instanceName funcName with e | u <;>
        simp [shadowFuncFor, syncShadowFunc, h]
    · simp [shadowFuncFor, syncShadowFunc]
    · rcases h : oracle.funcNew instanceName funcName with e | u <;>
        simp [shadowFuncFor, asyncShadowFunc, h]
    · rcases h : oracle.funcNewAsync instanceName funcName with e | u <;>
        simp [shadowFuncFor, asyncShadowFunc, h]
  · intro ht
    subst ht
    cases asyncMode <;> rfl
  · intro hm ht
    subst hm
    subst ht
    rfl

theorem c7_trampoline_synchronicity_witness :
    shadowFuncFor true oracle0 [] [] [] .sync
      = .ok ([] ++ [⟨[], [], .blocking⟩]) := by
  have h := (c7_trampoline_synchronicity true oracle0 [] [] [] .sync).2.1 rfl
  rw [h]
  rfl

theorem instantiateCore_graph_frame (g : CompositionGraph) (oracle : RuntimeOracle)
    (b : Bool) (origin : PkgId) (linker : LinkerState)
    (res : CompositionGraph × LinkerState × List Ev × Except InstantiateError Nat)
    (h : instantiateCore g oracle b origin linker = some res) : res.1 = g := by
  simp only [instantiateCore] at h
  split at h
  · simp only [Option.some_inj] at h
    rw [← h]
  · split at h
    · simp only [Option.some_inj] at h
      rw [← h]
    · split at h
      · simp only [Option.some_inj] at h
        rw [← h]
      · split at h
        · exact absurd h (by simp)
        · simp only [Option.some_inj] at h
          rw [← h]
        · split at h
          · simp only [Option.some_inj] at h
            rw [← h]
          · simp only [Option.some_inj] at h
            rw [← h]

/-- C10: frame property of instantiation.  Whatever a call to the blocking
or suspending instantiate returns (an instance token or an error), the graph
component of the outcome is the input graph: package_map,
exported_interfaces, imported_interfaces, the dense package store and the
type store are all unchanged; only the returned linker state differs. -/
theorem c10_instantiate_frame :
    ∀ (g : CompositionGraph) (oracle : RuntimeOracle) (origin : PkgId)
      (linker : LinkerState)
      (res : CompositionGraph × LinkerState × List Ev × Except InstantiateError Nat),
      (instantiateS g oracle origin linker = some res
        ∨ instantiateAsyncS g oracle origin linker = some res) →
      res.1.packageMap = g.packageMap
        ∧ res.1.exportedInterfaces = g.exportedInterfaces
        ∧ res.1.importedInterfaces = g.importedInterfaces
        ∧ res.1.packages = g.packages
        ∧ res.1.types = g.types := by
  intro g oracle origin linker res h
  have hg : res.1 = g := by
    rcases h with h | h
    · exact instantiateCore_graph_frame g oracle false origin linker res h
    · exact instantiateCore_graph_frame g oracle true origin linker res h
  rw [hg]
  exact ⟨rfl, rfl, rfl, rfl, rfl⟩

theorem c10_instantiate_frame_witness :
    (gC4dia, ([] : LinkerState), [Ev.target 3],
        (Except.ok 0 : Except InstantiateError Nat)).1.packageMap = gC4dia.packageMap
      ∧ (gC4dia, ([] : LinkerState), [Ev.target 3],
          (Except.ok 0 : Except InstantiateError Nat)).1.exportedInterfaces
            = gC4dia.exportedInterfaces
      ∧ (gC4dia, ([] : LinkerState), [Ev.target 3],
          (Except.ok 0 : Except InstantiateError Nat)).1.importedInterfaces
            = gC4dia.importedInterfaces
      ∧ (gC4dia, ([] : LinkerState), [Ev.target 3],
          (Except.ok 0 : Except InstantiateError Nat)).1.packages = gC4dia.packages
      ∧ (gC4dia, ([] : LinkerState), [Ev.target 3],
          (Except.ok 0 : Except InstantiateError Nat)).1.types = gC4dia.types :=
  c10_instantiate_frame gC4dia oracle0 3 []
    (gC4dia, [], [Ev.target 3], .ok 0) (Or.inl (by rfl))

theorem importOneF_none (pid : PkgId) (nm : Str)
    (ii : List (PkgId × List ForeignInterfacePath)) :
    importOneF none pid nm ii = importOne pid nm ii := by
  rcases h : InterfacePath.fromStr nm with e | path <;>
    simp only [importOneF, importOne, h]
  rcases h2 : path.intoForeign with _ | fp <;>
    simp only [h2, Option.getD_none]

theorem scanUsesF_none (types : Types) (pid : PkgId) :
    ∀ (us : List Nat) (ii : List (PkgId × List ForeignInterfacePath)),
      scanUsesF none types pid us ii = scanUses types pid us ii := by
  intro us
  induction us with
  | nil => intro ii; rfl
  | cons u rest ih =>
    intro ii
    simp only [scanUsesF, scanUses, importOneF_none, ih]

theorem scanImportsF_none (pid : PkgId) :
    ∀ (imps : List (Str × ItemKind)) (ii : List (PkgId × List ForeignInterfacePath)),
      scanImportsF none pid imps ii = scanImports pid imps ii := by
  intro imps
  induction imps with
  | nil => intro ii; rfl
  | cons hd rest ih =>
    intro ii
    obtain ⟨nm, kind⟩ := hd
    simp only [scanImportsF, scanImports, importOneF_none, ih]

theorem rescanImportsF_none (types : Types) :
    ∀ (pkgs : List (PkgId × Package)) (ii : List (PkgId × List ForeignInterfacePath)),
      rescanImportsF none types pkgs ii = rescanImports types pkgs ii := by
  intro pkgs
  induction pkgs with
  | nil => intro ii; rfl
  | cons hd rest ih =>
    intro ii
    obtain ⟨pid, pkg⟩ := hd
    simp only [rescanImportsF, rescanImports, scanUsesF_none, scanImportsF_none, ih]

theorem addPackageF_none
    (parse : Bytes → Types → Except ExtErr (PackageShape × Types))
    (g : CompositionGraph) (name : Str) (version : Version) (bytes : Bytes)
    (tramp : Str → DynInterfaceTrampoline) :
    addPackageF none parse g name version bytes tramp
      = addPackage parse g name version bytes tramp := by
  simp only [addPackageF, addPackage, rescanImportsF_none]

theorem filteredExtend_refl (filt : ImportFilterFn)
    (ii : List (PkgId × List ForeignInterfacePath)) : FilteredExtend filt ii ii :=
  fun _ => ⟨[], by simp, by simp⟩

theorem filteredExtend_trans {filt : ImportFilterFn}
    {a b c : List (PkgId × List ForeignInterfacePath)}
    (h1 : FilteredExtend filt a b) (h2 : FilteredExtend filt b c) :
    FilteredExtend filt a c := by
  intro pid
  obtain ⟨t1, ht1, hs1⟩ := h1 pid
  obtain ⟨t2, ht2, hs2⟩ := h2 pid
  refine ⟨t1 ++ t2, by rw [ht2, ht1, List.append_assoc], ?_⟩
  intro fp hfp
  rcases List.mem_append.mp hfp with hm | hm
  · exact hs1 fp hm
  · exact hs2 fp hm

theorem importOneF_filtered (filt : ImportFilterFn) (pid : PkgId) (nm : Str)
    (ii ii' : List (PkgId × List ForeignInterfacePath))
    (h : importOneF (some filt) pid nm ii = .ok ii') : FilteredExtend filt ii ii' := by
  simp only [importOneF, Option.getD_some] at h
  split at h
  · exact absurd h (by simp)
  · split at h
    · rename_i fp hfp
      have hadd : filt fp ≠ .skip →
          FilteredExtend filt ii (aupdate pid (fun l => l.getD [] ++ [fp]) ii) := by
        intro hne q
        by_cases hq : q = pid
        · subst hq
          rw [alookup_aupdate_eq]
          refine ⟨[fp], by simp, ?_⟩
          intro x hx
          simp only [List.mem_singleton] at hx
          rw [hx]
          exact hne
        · rw [alookup_aupdate_ne q pid _ ii hq]
          exact ⟨[], by simp, by simp⟩
      rcases hr : filt fp with _ | _ | _
      · simp only [hr] at h
        simp only [Except.ok.injEq] at h
        rw [h]
        exact filteredExtend_refl filt ii'
      · simp only [hr] at h
        simp only [Except.ok.injEq] at h
        rw [← h]
        exact hadd (by simp [hr])
      · simp only [hr] at h
        simp only [Except.ok.injEq] at h
        rw [← h]
        exact hadd (by simp [hr])
    · simp only [Except.ok.injEq] at h
      rw [h]
      exact filteredExtend_refl filt ii'

theorem scanUsesF_filtered (filt : ImportFilterFn) (types : Types) (pid : PkgId) :
    ∀ (us : List Nat) (ii ii' : List (PkgId × List ForeignInterfacePath)),
      scanUsesF (some filt) types pid us ii = some (.ok ii') →
      FilteredExtend filt ii ii' := by
  intro us
  induction us with
  | nil =>
    intro ii ii' h
    simp only [scanUsesF, Option.some_inj, Except.ok.injEq] at h
    rw [h]
    exact filteredExtend_refl filt ii'
  | cons u rest ih =>
    intro ii ii' h
    simp only [scanUsesF] at h
    split at h
    · exact absurd h (by simp)
    · split at h
      · exact ih ii ii' h
      · split at h
        · exact absurd h (by simp)
        · rename_i ii1 hio
          exact filteredExtend_trans (importOneF_filtered filt pid _ ii ii1 hio)
            (ih ii1 ii' h)

theorem scanImportsF_filtered (filt : ImportFilterFn) (pid : PkgId) :
    ∀ (imps : List (Str × ItemKind)) (ii ii' : List (PkgId × List ForeignInterfacePath)),
      scanImportsF (some filt) pid imps ii = .ok ii' → FilteredExtend filt ii ii' := by
  intro imps
  induction imps with
  | nil =>
    intro ii ii' h
    simp only [scanImportsF, Except.ok.injEq] at h
    rw [h]
    exact filteredExtend_refl filt ii'
  | cons hd rest ih =>
    intro ii ii' h
    obtain ⟨nm, kind⟩ := hd
    simp only [scanImportsF] at h
    split at h
    · split at h
      · exact absurd h (by simp)
      · rename_i ii1 hio
        exact filteredExtend_trans (importOneF_filtered filt pid nm ii ii1 hio)
          (ih ii1 ii' h)
    · exact ih ii ii' h

theorem rescanImportsF_filtered (filt : ImportFilterFn) (types : Types) :
    ∀ (pkgs : List (PkgId × Package)) (ii ii' : List (PkgId × List ForeignInterfacePath)),
      rescanImportsF (some filt) types pkgs ii = some (.ok ii') →
      FilteredExtend filt ii ii' := by
  intro pkgs
  induction pkgs with
  | nil =>
    intro ii ii' h
    simp only [rescanImportsF, Option.some_inj, Except.ok.injEq] at h
    rw [h]
    exact filteredExtend_refl filt ii'
  | cons hd rest ih =>
    intro ii ii' h
    obtain ⟨pid, pkg⟩ := hd
    simp only [rescanImportsF] at h
    split at h
    · exact absurd h (by simp)
    · exact absurd h (by simp)
    · rename_i ii1 hsu
      split at h
      · exact absurd h (by simp)
      · rename_i ii2 hsi
        exact filteredExtend_trans (scanUsesF_filtered filt types pid _ ii ii1 hsu)
          (filteredExtend_trans (scanImportsF_filtered filt pid _ ii1 ii2 hsi)
            (ih ii2 ii' h))

/-- Modelled from the spec: C3, import-filter classification.  First, with
no filter set every discovered import is classified Include, and the
spec-modelled add_package coincides exactly with the provided source's
add_package.  Second, under any filter, a successful add_package grows each
package's imported_interfaces list only by imports the filter does not
classify Skip: a Skip-classified import is never placed into
imported_interfaces, hence never seen by dependency resolution or shim
installation (both of which read that table). -/
theorem c3_import_filter_classification :
    (∀ (parse : Bytes → Types → Except ExtErr (PackageShape × Types))
        (g : CompositionGraph) (name : Str) (version : Version) (bytes : Bytes)
        (tramp : Str → DynInterfaceTrampoline),
        addPackageF none parse g name version bytes tramp
          = addPackage parse g name version bytes tramp)
    ∧ (∀ (filt : ImportFilterFn)
        (parse : Bytes → Types → Except ExtErr (PackageShape × Types))
        (g : CompositionGraph) (name : Str) (version : Version) (bytes : Bytes)
        (tramp : Str → DynInterfaceTrampoline) (g' : CompositionGraph) (pid : PkgId),
        addPackageF (some filt) parse g name version bytes tramp = .ok g' pid →
        FilteredExtend filt g.importedInterfaces g'.importedInterfaces) := by
  constructor
  · exact addPackageF_none
  · intro filt parse g name version bytes tramp g' pid hok
    simp only [addPackageF] at hok
    split at hok
    · exact absurd hok (by simp)
    · split at hok
      · exact absurd hok (by simp)
      · split at hok
        · exact absurd hok (by simp)
        · split at hok
          · exact absurd hok (by simp)
          · exact absurd hok (by simp)
          · rename_i ii' hrescan
            simp only [AddResult.ok.injEq] at hok
            rw [← hok.1]
            exact rescanImportsF_filtered _ _ _ _ _ hrescan

theorem c3_import_filter_classification_witness :
    FilteredExtend filtSkipB ([] : List (PkgId × List ForeignInterfacePath)) [] :=
  c3_import_filter_classification.2 filtSkipB c6parse CompositionGraph.new
    ("a".toList) (Version.new 1 0 0) 0 (fun _ => .sync)
    ⟨⟨[], 0⟩,
     [⟨"a".toList, Version.new 1 0 0, 0, ⟨[], [("b/i".toList, .instanceKind 0)], []⟩⟩],
     [("a".toList, ⟨[(Version.new 1 0 0, 0)], [(Version.new 1 0 0, [Version.new 1 0 0])]⟩)],
     [],
     []⟩
    0 (by rfl)

/-- A duplicate-rejected add_package call whose resulting graph keeps the
dense-store entry inserted before the conflict: the package list after the
failing call is strictly larger than before, refuting the claimed
rollback. -/
theorem c2_duplicate_keeps_slab_entry :
    addPackage (fun _ t => .ok (⟨[], [], []⟩, t)) gC5cyc ("a".toList)
        (Version.new 1 0 0) 0 (fun _ => .sync)
      = .err { gC5cyc with
               packages := gC5cyc.packages
                 ++ [⟨"a".toList, Version.new 1 0 0, 0, ⟨[], [], []⟩⟩] }
          (.duplicatePackage ("a".toList) (Version.new 1 0 0))
    ∧ gC5cyc.packages ++ [⟨"a".toList, Version.new 1 0 0, 0, ⟨[], [], []⟩⟩]
        ≠ gC5cyc.packages :=
  ⟨by rfl, by decide⟩

/-- Two successful add_package calls leaving a duplicated entry in the
list of imports recorded for package 0, refuting the claimed per-package
at-most-once invariant. -/
theorem c6_duplicate_import_recorded :
    ∃ g1 g2 : CompositionGraph,
      addPackage c6parse CompositionGraph.new ("a".toList) (Version.new 1 0 0) 0
          (fun _ => .sync) = .ok g1 0
      ∧ addPackage c6parse g1 ("b".toList) (Version.new 1 0 0) 1
          (fun _ => .sync) = .ok g2 1
      ∧ ¬ ((alookup 0 g2.importedInterfaces).getD []).Nodup :=
  ⟨_, _, rfl, rfl, by decide⟩

end WCT
